import Mathlib

/-!
Verification development for the Nickel analysis front end excerpt:
the interpolation-aware lexer (`src/parser/lexer.rs`) and the NLS
linearization engine (`lsp/nls/src/linearization.rs`).

The lexer is embedded as an explicit state machine over the byte-indexed
character stream (Rust's `char_indices`), with the mode stack and the
one-character look-ahead made explicit.  The linearizer is embedded as a
state-passing translation of `AnalysisHost::add_term` and
`Linearizer::linearize`; the data types it consumes
(`LinearizationItem`, `TermKind`, the AST terms, the environment) live in
modules outside this excerpt and are modelled from the specification.
-/

set_option linter.unusedVariables false
set_option maxHeartbeats 1000000

namespace NLex

/-- Tokens produced by the lexer (`Token` in lexer.rs).  `NumLiteral` keeps
the source slice that the Rust code parses into an `f64`; IEEE parsing is
outside this embedding.  The base-type token (`Token::Type`) is named `Ty`
because `Type` is a Lean keyword. -/
inductive Token where
  | Identifier (s : String)
  | BinaryOp (s : String)
  | Ty (s : String)
  | StrLiteral (s : String)
  | NumLiteral (s : String)
  | If | Then | Else | Forall | In | Let | Switch
  | True | False
  | Comma | Colon | Dollar | Equals | SemiCol | Dot | DotDollar
  | DollarBracket | DollarEquals | DollarBrace | DoubleQuote | MinusDollar
  | Fun | Import | Pipe | SimpleArrow | DoubleArrow | Hash | Backtick | Underscore
  | Tag | Assume | Promise | Deflt | Contract | ContractDeflt | Docstring
  | IsZero | IsNum | IsBool | IsStr | IsFun | IsList | Blame | ChangePol
  | Polarity | GoDom | GoCodom | Wrap | Embed | MapRec | Seq | DeepSeq
  | Head | Tail | Length
  | Unwrap | HasField | Map | ElemAt | Merge
  | LBrace | RBrace | LBracket | RBracket | LParen | RParen
  | LAngleBracket | RAngleBracket
deriving Repr

/-- The lexer mode (`Mode` in lexer.rs). -/
inductive Mode where
  | Normal
  | Str
  | DollarBrace (idx : Nat)
deriving DecidableEq, Repr

/-- Lexing errors (`LexicalError` in lexer.rs). -/
inductive LexicalError where
  | UnmatchedCloseBrace (idx : Nat)
  | UnexpectedChar (idx : Nat)
  | NumThenIdent (idx : Nat)
  | InvalidEscapeSequence (idx : Nat)
  | UnexpectedEOF (ctx : List String)
deriving DecidableEq, Repr

/-- A spanned token `(start, token, end)` as in `Spanned` of lexer.rs. -/
def Spanned := Nat × Token × Nat

instance : Repr Spanned := by unfold Spanned; infer_instance

def is_alpha (c : Char) : Bool :=
  ('a' ≤ c && c ≤ 'z') || ('A' ≤ c && c ≤ 'Z')

/-- `is_ident_char` from lexer.rs: digits, underscore, or an alphabetic
start (the `is_ident_start(chr, None)` fallback collapses to alphabetic). -/
def is_ident_char (c : Char) : Bool :=
  is_digit c || c = '_' || is_alpha c
where
  /-- `is_digit` from lexer.rs. -/
  is_digit (c : Char) : Bool := '0' ≤ c && c ≤ '9'

def is_digit (c : Char) : Bool := '0' ≤ c && c ≤ '9'

/-- `is_ident_start` from lexer.rs: alphabetic, or `_` followed by an
identifier character. -/
def is_ident_start (c : Char) (look_ahead : Option Char) : Bool :=
  is_alpha c || (c = '_' && (look_ahead.map is_ident_char).getD false)

/-- `is_op_char` from lexer.rs. -/
def is_op_char (c : Char) : Bool :=
  c = '+' || c = '@' || c = '=' || c = '-' || c = '<' || c = '>' ||
  c = '.' || c = '|' || c = '#'

/-- `is_whitespace` from lexer.rs. -/
def is_whitespace (c : Char) : Bool :=
  c = '\t' || c = '\n' || c = '\r' || c = ' '

/-- `is_num_start` from lexer.rs: a digit, or `-` followed by a digit. -/
def is_num_start (c : Char) (look_ahead : Option Char) : Bool :=
  if c = '-' then (look_ahead.map is_digit).getD false else is_digit c

/-- `escape_char` from lexer.rs: the fixed escape table. -/
def escape_char (c : Char) : Option Char :=
  if c = '\'' then some '\''
  else if c = '"' then some '"'
  else if c = '\\' then some '\\'
  else if c = '$' then some '$'
  else if c = 'n' then some '\n'
  else if c = 'r' then some '\r'
  else if c = 't' then some '\t'
  else none

/-- Byte-offset character enumeration, as Rust's `str::char_indices`. -/
def charIndicesFrom (i : Nat) : List Char → List (Nat × Char)
  | [] => []
  | c :: cs => (i, c) :: charIndicesFrom (i + c.utf8Size) cs

def charIndices (s : String) : List (Nat × Char) :=
  charIndicesFrom 0 s.data

/-- The source slice `input[a..b]` for byte offsets `a`, `b` lying on
character boundaries, computed from the indexed character list. -/
def sliceIdx (input : List (Nat × Char)) (a b : Nat) : String :=
  ⟨(input.filter (fun p => a ≤ p.1 && p.1 < b)).map Prod.snd⟩

def byteSlice (s : String) (a b : Nat) : String :=
  sliceIdx (charIndices s) a b

/-- The lexer state (`Lexer` in lexer.rs).  `rest` is the look-ahead
character followed by the unread stream; `input` is kept whole for
slicing.  The head of `mode_stack` is the top of the stack. -/
structure Lexer where
  input : List (Nat × Char)
  rest : List (Nat × Char)
  mode_stack : List Mode
  mode : Mode
deriving Repr

def Lexer.new (s : String) : Lexer :=
  { input := charIndices s, rest := charIndices s,
    mode_stack := [], mode := .Normal }

/-- `push_mode`: save the current mode on the stack and switch. -/
def Lexer.push_mode (l : Lexer) (m : Mode) : Lexer :=
  { l with mode_stack := l.mode :: l.mode_stack, mode := m }

/-- `pop_mode`: restore the previous mode; `false` if the stack was empty
(in which case the mode resets to `Normal`). -/
def Lexer.pop_mode (l : Lexer) : Bool × Lexer :=
  match l.mode_stack with
  | m :: ms => (true, { l with mode := m, mode_stack := ms })
  | [] => (false, { l with mode := .Normal })

/-- `consume`: take the look-ahead character from the stream. -/
def Lexer.consume (l : Lexer) : Option (Nat × Char) × Lexer :=
  match l.rest with
  | [] => (none, l)
  | x :: xs => (some x, { l with rest := xs })

/-- `look_ahead_is`. -/
def Lexer.look_ahead_is (l : Lexer) (c : Char) : Bool :=
  match l.rest with
  | (_, next) :: _ => next = c
  | [] => false

/-- The loop of `take_while`: consume while the look-ahead satisfies
`pred`; returns the end offset and the remaining stream.  The first
argument threads the mutable `end` variable (initially `start`); when the
stream runs out the source does `end += 1`. -/
def takeWhileAux (pred : Char → Bool) : Nat → List (Nat × Char) → Nat × List (Nat × Char)
  | e, [] => (e + 1, [])
  | _, (index, chr) :: rest =>
    if pred chr then takeWhileAux pred index rest
    else (index, (index, chr) :: rest)

/-- `take_while`: end offset, the slice `input[start..end]`, and the
updated lexer. -/
def Lexer.take_while (l : Lexer) (start : Nat) (pred : Char → Bool) :
    Nat × String × Lexer :=
  let (e, rest) := takeWhileAux pred start l.rest
  (e, sliceIdx l.input start e, { l with rest })

/-- `identifier` from lexer.rs: keyword lookup over the scanned slice;
`Assume(`-like forms also consume the parenthesis. -/
def Lexer.identifier (l : Lexer) (start : Nat) :
    Except LexicalError Spanned × Lexer :=
  let (e, slice, l) := l.take_while start is_ident_char
  let is_next_lparen := l.look_ahead_is '('
  let keyword : Token → Except LexicalError Spanned × Lexer := fun t =>
    (.ok (start, t, e), l)
  let parenForm : Token → Except LexicalError Spanned × Lexer := fun t =>
    (.ok (start, t, e + 1), l.consume.2)
  match slice with
  | "if" => keyword .If
  | "then" => keyword .Then
  | "else" => keyword .Else
  | "forall" => keyword .Forall
  | "in" => keyword .In
  | "let" => keyword .Let
  | "switch" => keyword .Switch
  | "tag" => keyword .Tag
  | "fun" => keyword .Fun
  | "import" => keyword .Import
  | "true" => keyword .True
  | "false" => keyword .False
  | "Assume" => if is_next_lparen then parenForm .Assume else keyword (.Identifier slice)
  | "Promise" => if is_next_lparen then parenForm .Promise else keyword (.Identifier slice)
  | "Default" => if is_next_lparen then parenForm .Deflt else keyword (.Identifier slice)
  | "Contract" => if is_next_lparen then parenForm .Contract else keyword (.Identifier slice)
  | "ContractDefault" => if is_next_lparen then parenForm .ContractDeflt else keyword (.Identifier slice)
  | "Docstring" => if is_next_lparen then parenForm .Docstring else keyword (.Identifier slice)
  | "isZero" => keyword .IsZero
  | "isNum" => keyword .IsNum
  | "isBool" => keyword .IsBool
  | "isStr" => keyword .IsStr
  | "isFun" => keyword .IsFun
  | "isList" => keyword .IsList
  | "blame" => keyword .Blame
  | "chngPol" => keyword .ChangePol
  | "polarity" => keyword .Polarity
  | "goDom" => keyword .GoDom
  | "goCodom" => keyword .GoCodom
  | "wrap" => keyword .Wrap
  | "embed" => keyword .Embed
  | "mapRec" => keyword .MapRec
  | "seq" => keyword .Seq
  | "deepSeq" => keyword .DeepSeq
  | "head" => keyword .Head
  | "tail" => keyword .Tail
  | "length" => keyword .Length
  | "unwrap" => keyword .Unwrap
  | "hasField" => keyword .HasField
  | "map" => keyword .Map
  | "elemAt" => keyword .ElemAt
  | "merge" => keyword .Merge
  | "Dyn" => keyword (.Ty slice)
  | "Num" => keyword (.Ty slice)
  | "Bool" => keyword (.Ty slice)
  | "Str" => keyword (.Ty slice)
  | "List" => keyword (.Ty slice)
  | _ => keyword (.Identifier slice)

/-- `num_literal` from lexer.rs. -/
def Lexer.num_literal (l : Lexer) (start : Nat) :
    Except LexicalError Spanned × Lexer :=
  let (e, num, l) := l.take_while start is_digit
  let (e, num, l) :=
    match l.rest with
    | (_, '.') :: _ => (l.consume.2).take_while start is_digit
    | _ => (e, num, l)
  match l.rest with
  | (index, chr) :: _ =>
    if is_ident_char chr then (.error (.NumThenIdent index), l)
    else (.ok (start, .NumLiteral num, e), l)
  | [] => (.ok (start, .NumLiteral num, e), l)

/-- `operator` from lexer.rs. -/
def Lexer.operator (l : Lexer) (start : Nat) :
    Except LexicalError Spanned × Lexer :=
  let (e, op, l) := l.take_while start is_op_char
  match op with
  | "." =>
    if l.look_ahead_is '$' then (.ok (start, .DotDollar, e + 1), l.consume.2)
    else (.ok (start, .Dot, e), l)
  | "-" =>
    if l.look_ahead_is '$' then (.ok (start, .MinusDollar, e + 1), l.consume.2)
    else (.ok (start, .BinaryOp op, e), l)
  | "=" => (.ok (start, .Equals, e), l)
  | "->" => (.ok (start, .SimpleArrow, e), l)
  | "=>" => (.ok (start, .DoubleArrow, e), l)
  | "<" => (.ok (start, .LAngleBracket, e), l)
  | ">" => (.ok (start, .RAngleBracket, e), l)
  | "|" => (.ok (start, .Pipe, e), l)
  | _ => (.ok (start, .BinaryOp op, e), l)

/-- The loop of `str_literal`.  Arguments: the accumulated-text start
offset, the unread stream, the running `eof` offset, and the accumulator.
Returns the result, the remaining stream, and an optional mode to push
(the source calls `push_mode` before returning in the `${` cases). -/
def strLitLoop (start : Nat) :
    List (Nat × Char) → Nat → String →
    Except LexicalError Spanned × List (Nat × Char) × Option Mode
  | [], eof, acc => (.ok (start, .StrLiteral acc, eof), [], none)
  | (index, chr) :: rest, eof, acc =>
    if chr = '"' then
      -- the look-ahead is a closing quote: emit the accumulated literal
      -- without consuming it (note the `start + 1` end offset).
      (.ok (start, .StrLiteral acc, start + 1), (index, chr) :: rest, none)
    else if chr = '\\' then
      match rest with
      | [] => (.error (.UnexpectedEOF ["escape sequence"]), [], none)
      | (i, c) :: rest2 =>
        match escape_char c with
        | none => (.error (.InvalidEscapeSequence i), rest2, none)
        | some ec => strLitLoop start rest2 (index + 1) (acc.push ec)
    else if chr = '$' then
      match rest with
      | (_, '{') :: rest2 =>
        if acc.isEmpty then
          (.ok (index, .DollarBrace, index + 2), rest2, some .Normal)
        else
          (.ok (start, .StrLiteral acc, index), rest2, some (.DollarBrace index))
      | _ => strLitLoop start rest (index + 1) (acc.push '$')
    else
      strLitLoop start rest (index + 1) (acc.push chr)

/-- `str_literal` from lexer.rs. -/
def Lexer.str_literal (l : Lexer) (start : Nat) :
    Except LexicalError Spanned × Lexer :=
  let (res, rest, push?) := strLitLoop start l.rest (start + 1) ""
  let l := { l with rest }
  match push? with
  | some m => (res, l.push_mode m)
  | none => (res, l)

/-- The `while let Some((index, chr)) = self.consume()` loop of `next`,
entered in `Normal` mode.  The Rust `match` arms are rendered as an
if-chain in source order; `continue` on whitespace is the recursive
call. -/
def nextLoop (input : List (Nat × Char)) :
    List (Nat × Char) → List Mode → Mode →
    Option (Except LexicalError Spanned) × Lexer
  | [], stack, mode => (none, ⟨input, [], stack, mode⟩)
  | (index, chr) :: rest, stack, mode =>
    let l : Lexer := ⟨input, rest, stack, mode⟩
    if chr = ',' then (some (.ok (index, .Comma, index + 1)), l)
    else if chr = ':' then (some (.ok (index, .Colon, index + 1)), l)
    else if chr = ';' then (some (.ok (index, .SemiCol, index + 1)), l)
    else if chr = '$' then
      match rest with
      | (_, '=') :: rest2 => (some (.ok (index, .DollarEquals, index + 2)), { l with rest := rest2 })
      | (_, '[') :: rest2 => (some (.ok (index, .DollarBracket, index + 2)), { l with rest := rest2 })
      | (_, '{') :: rest2 => (some (.ok (index, .DollarBrace, index + 2)), { l with rest := rest2 })
      | _ => (some (.ok (index, .Dollar, index + 1)), l)
    else if chr = '{' then
      (some (.ok (index, .LBrace, index + 1)), l.push_mode .Normal)
    else if chr = '}' then
      let (popped, l) := l.pop_mode
      if popped then (some (.ok (index, .RBrace, index + 1)), l)
      else (some (.error (.UnmatchedCloseBrace index)), l)
    else if chr = '[' then (some (.ok (index, .LBracket, index + 1)), l)
    else if chr = ']' then (some (.ok (index, .RBracket, index + 1)), l)
    else if chr = '(' then (some (.ok (index, .LParen, index + 1)), l)
    else if chr = ')' then (some (.ok (index, .RParen, index + 1)), l)
    else if chr = '#' then (some (.ok (index, .Hash, index + 1)), l)
    else if chr = Char.ofNat 96 then -- backtick
      (some (.ok (index, .Backtick, index + 1)), l)
    else if chr = '"' then
      (some (.ok (index, .DoubleQuote, index + 1)), l.push_mode .Str)
    else if is_ident_start chr (rest.head?.map Prod.snd) then
      let (r, l) := l.identifier index
      (some r, l)
    else if chr = '_' then (some (.ok (index, .Underscore, index + 1)), l)
    else if is_num_start chr (rest.head?.map Prod.snd) then
      let (r, l) := l.num_literal index
      (some r, l)
    else if is_op_char chr then
      let (r, l) := l.operator index
      (some r, l)
    else if is_whitespace chr then nextLoop input rest stack mode
    else (some (.error (.UnexpectedChar index)), l)

/-- `<Lexer as Iterator>::next`. -/
def Lexer.next (l : Lexer) : Option (Except LexicalError Spanned) × Lexer :=
  match l.mode with
  | .DollarBrace index =>
    -- the source asserts that pop_mode succeeds here: the stack is never
    -- empty while the DollarBrace mode is active.
    let (_, l) := l.pop_mode
    let l := l.push_mode .Normal
    (some (.ok (index, .DollarBrace, index + 2)), l)
  | .Str =>
    match l.rest with
    | (index, '"') :: rest =>
      let l := { l with rest }
      let (_, l) := l.pop_mode
      (some (.ok (index, .DoubleQuote, index + 1)), l)
    | (index, _) :: _ =>
      let (r, l) := l.str_literal index
      (some r, l)
    | [] => (none, l)
  | .Normal => nextLoop l.input l.rest l.mode_stack l.mode

/-- Pull tokens until the stream ends or the first error, as the parser
consumes the iterator.  `fuel` bounds the number of pulls; `lex` supplies
enough fuel for any input (every pull either consumes a character or
discharges the one-shot DollarBrace mode). -/
def lexAllFuel : Nat → Lexer → List (Except LexicalError Spanned)
  | 0, _ => []
  | fuel + 1, l =>
    match l.next with
    | (none, _) => []
    | (some (.ok t), l') => .ok t :: lexAllFuel fuel l'
    | (some (.error e), _) => [.error e]

def lex (s : String) : List (Except LexicalError Spanned) :=
  lexAllFuel (2 * s.length + 2) (Lexer.new s)

/-- The spans of the successfully emitted tokens, in emission order. -/
def okSpans (rs : List (Except LexicalError Spanned)) : List (Nat × Nat) :=
  rs.filterMap (fun r =>
    match r with
    | .ok (a, _, b) => some (a, b)
    | .error _ => none)

/-- Concatenation of the source slices of all emitted token spans. -/
def sliceConcat (s : String) : String :=
  String.join ((okSpans (lex s)).map (fun p => byteSlice s p.1 p.2))

end NLex

namespace NLex

/-- Whether the next item in the stream opens an interpolation (`{`
following the `$` the loop just consumed). -/
def headIsLBrace : List (Nat × Char) → Bool
  | (_, e) :: _ => e = '{'
  | [] => false

/-- Exactly the streams on which `str_literal`'s loop runs to end of
input: no un-escaped closing quote, no `${` interpolation start, every
backslash followed by a character of the escape table, and in particular
the stream does not end right after a backslash.  Branch for branch this
mirrors the loop's early returns and error exits. -/
def scanReachesEof : List (Nat × Char) → Bool
  | [] => true
  | (_, c) :: rest =>
    if c = '"' then false
    else if c = '\\' then
      match rest with
      | [] => false
      | (_, e) :: rest2 => (escape_char e).isSome && scanReachesEof rest2
    else if c = '$' then
      !headIsLBrace rest && scanReachesEof rest
    else
      scanReachesEof rest

/-- The text the loop accumulates over such a stream: escape pairs are
decoded through the escape table, every other character (including a
lone `$`) is kept verbatim. -/
def strAccum : List (Nat × Char) → List Char
  | [] => []
  | (_, c) :: rest =>
    if c = '\\' then
      match rest with
      | [] => []
      | (_, e) :: rest2 =>
        match escape_char e with
        | some ec => ec :: strAccum rest2
        | none => []
    else
      c :: strAccum rest

/-- The `eof` offset as tracked by the loop: each consumed character at
offset `i` sets it to `i + 1`, except that the character consumed for an
escape sequence does not update it. -/
def strEofSkip (eof : Nat) : List (Nat × Char) → Nat
  | [] => eof
  | (i, c) :: rest =>
    if c = '\\' then
      match rest with
      | [] => i + 1
      | _ :: rest2 => strEofSkip (i + 1) rest2
    else
      strEofSkip (i + 1) rest

/-- C7: whenever the string-literal scan reaches end of input — no
closing quote, no interpolation start, and not immediately after a
backslash (`scanReachesEof` characterizes exactly these streams, escape
sequences and literal dollars included) — the lexer returns an Ok
string-literal token holding the text accumulated so far, not a lexical
error. -/
theorem c7_eof_returns_accumulated_literal (start : Nat) :
    ∀ (rest : List (Nat × Char)) (eof : Nat) (acc : String),
    scanReachesEof rest = true →
    strLitLoop start rest eof acc =
      (.ok (start, .StrLiteral ⟨acc.data ++ strAccum rest⟩, strEofSkip eof rest),
       [], none)
  | [], eof, acc, h => by
    simp [strLitLoop, strAccum, strEofSkip]
  | (i, c) :: rest, eof, acc, h => by
    unfold scanReachesEof at h
    by_cases h1 : c = '"'
    · rw [if_pos h1] at h
      cases h
    · rw [if_neg h1] at h
      by_cases h2 : c = '\\'
      · rw [if_pos h2] at h
        subst h2
        rcases rest with _ | ⟨⟨j, e⟩, rest2⟩
        · simp at h
        · obtain ⟨hesc, hrest⟩ :
              (escape_char e).isSome = true ∧ scanReachesEof rest2 = true := by
            simpa using h
          obtain ⟨ec, hec⟩ := Option.isSome_iff_exists.1 hesc
          have ih := c7_eof_returns_accumulated_literal start rest2 (i + 1)
            (acc.push ec) hrest
          unfold strLitLoop
          unfold strAccum strEofSkip
          simp [hec, ih]
      · rw [if_neg h2] at h
        by_cases h3 : c = '$'
        · rw [if_pos h3] at h
          subst h3
          obtain ⟨hbrace', hrest⟩ :
              headIsLBrace rest = false ∧ scanReachesEof rest = true := by
            simpa using h
          have ih := c7_eof_returns_accumulated_literal start rest (i + 1)
            (acc.push '$') hrest
          unfold strLitLoop
          unfold strAccum strEofSkip
          rcases rest with _ | ⟨⟨j, e⟩, rest2⟩
          · simp [ih]
          · have he : ¬ e = '{' := by
              intro hcontra
              subst hcontra
              simp [headIsLBrace] at hbrace'
            simp [he, ih]
        · rw [if_neg h3] at h
          have ih := c7_eof_returns_accumulated_literal start rest (i + 1)
            (acc.push c) h
          unfold strLitLoop
          unfold strAccum strEofSkip
          simp [h1, h2, h3, ih]

theorem c7_witness :
    strLitLoop 1 [(1, 'a'), (2, '\\'), (3, 'n'), (4, '$'), (5, 'b')] 2 "" =
      (.ok (1, .StrLiteral "a\n$b", 6), [], none) := by
  have h := c7_eof_returns_accumulated_literal 1
    [(1, 'a'), (2, '\\'), (3, 'n'), (4, '$'), (5, 'b')] 2 "" (by decide)
  simpa using h

end NLex

namespace NLex

/-- C10: reaching end of input immediately after a backslash inside a
string-literal scan is the error `UnexpectedEOF ["escape sequence"]`
(the one EOF-inside-string case that errors), and an escape character
outside the fixed table is `InvalidEscapeSequence` at that character's
offset. -/
theorem c10_escape_errors :
    (∀ (start i eof : Nat) (acc : String),
      strLitLoop start [(i, '\\')] eof acc =
        (.error (.UnexpectedEOF ["escape sequence"]), [], none)) ∧
    (∀ (start i j eof : Nat) (c : Char) (rest : List (Nat × Char)) (acc : String),
      escape_char c = none →
      strLitLoop start ((i, '\\') :: (j, c) :: rest) eof acc =
        (.error (.InvalidEscapeSequence j), rest, none)) := by
  constructor
  · intro start i eof acc
    unfold strLitLoop
    simp
  · intro start i j eof c rest acc h
    unfold strLitLoop
    simp [h]

theorem c10_witness :
    escape_char 'x' = none ∧
    strLitLoop 1 [(1, '\\'), (2, 'x')] 2 "" =
      (.error (.InvalidEscapeSequence 2), [], none) :=
  ⟨rfl, c10_escape_errors.2 1 1 2 2 'x' [] "" rfl⟩

/-- C6: whenever the lexer consumes a `}` in Normal mode while its mode
stack is empty, it yields `UnmatchedCloseBrace` carrying exactly that
`}`'s byte offset (popping an empty stack is an error value, not a
crash). -/
theorem c6_unmatched_close_brace (l : Lexer) (i : Nat) (rest' : List (Nat × Char))
    (hmode : l.mode = .Normal) (hstack : l.mode_stack = [])
    (hrest : l.rest = (i, '}') :: rest') :
    (Lexer.next l).1 = some (.error (.UnmatchedCloseBrace i)) := by
  obtain ⟨input, rest, stack, mode⟩ := l
  simp only at hmode hstack hrest
  subst hmode hstack hrest
  simp [Lexer.next, nextLoop, Lexer.pop_mode]

theorem c6_witness :
    (Lexer.new "\x7d").mode = .Normal ∧ (Lexer.new "\x7d").mode_stack = [] ∧
    (Lexer.new "\x7d").rest = [(0, '}')] ∧
    (Lexer.next (Lexer.new "\x7d")).1 = some (.error (.UnmatchedCloseBrace 0)) :=
  ⟨rfl, rfl, rfl, c6_unmatched_close_brace (Lexer.new "\x7d") 0 [] rfl rfl rfl⟩

/-- C5: lexing `"${x}"` produces exactly double-quote, interpolation
start, identifier "x", close brace, double-quote — with no empty
string-literal token between the opening quote and the `${`. -/
theorem c5_interpolation_at_string_start :
    lex "\"${x}\"" =
      [.ok (0, .DoubleQuote, 1), .ok (1, .DollarBrace, 3),
       .ok (3, .Identifier "x", 4), .ok (4, .RBrace, 5),
       .ok (5, .DoubleQuote, 6)] := rfl

/-- C4: lexing `"a${x}b"` produces double-quote, string-literal "a",
interpolation start, identifier "x", close brace, string-literal "b",
double-quote; the interpolation-start token is emitted by the call right
after the string-literal "a" token, from the one-shot DollarBrace mode,
without consuming any further input. -/
theorem c4_interpolation_mid_string :
    lex "\"a${x}b\"" =
      [.ok (0, .DoubleQuote, 1), .ok (1, .StrLiteral "a", 2),
       .ok (2, .DollarBrace, 4), .ok (4, .Identifier "x", 5),
       .ok (5, .RBrace, 6), .ok (6, .StrLiteral "b", 7),
       .ok (7, .DoubleQuote, 8)] ∧
    ((Lexer.new "\"a${x}b\"").next.2.next.2.mode = Mode.DollarBrace 2 ∧
     ((Lexer.new "\"a${x}b\"").next.2.next.2.next.1 =
        some (.ok (2, .DollarBrace, 4))) ∧
     (Lexer.new "\"a${x}b\"").next.2.next.2.next.2.rest =
       (Lexer.new "\"a${x}b\"").next.2.next.2.rest) :=
  ⟨rfl, rfl, rfl, rfl⟩

/-- C2 (code bug): claimed, every token span covers precisely the source
text it was lexed from, so concatenating the spans' slices with the
skipped whitespace reconstructs the input.  On `"ab"` (no whitespace at
all) the string-literal token consumes `ab` but gets span `[1,2)`, so the
reconstruction loses the `b`: `str_literal` returns end offset
`start + 1` in its closing-quote branch instead of the offset where the
literal really ends. -/
theorem c2_span_reconstruction_fails :
    lex "\"ab\"" =
      [.ok (0, .DoubleQuote, 1), .ok (1, .StrLiteral "ab", 2),
       .ok (3, .DoubleQuote, 4)] ∧
    sliceConcat "\"ab\"" = "\"a\"" ∧
    (∀ c ∈ "\"ab\"".data, is_whitespace c = false) ∧
    sliceConcat "\"ab\"" ≠ "\"ab\"" :=
  ⟨rfl, rfl, by decide, by decide⟩

end NLex

namespace NLin

/-- Modelled from the spec: a resolved source span (`RawSpan` of the
external position module); only the source file id and the start offset
are consumed by this excerpt's sort key. -/
structure RawSpan where
  src_id : Nat
  start : Nat
  stop : Nat
deriving DecidableEq, Repr

/-- Modelled from the spec: `TermPos` — no position, an original
position, or a position inherited from another node. -/
inductive TermPos where
  | Original (sp : RawSpan)
  | Inherited (sp : RawSpan)
  | None
deriving DecidableEq, Repr

/-- Modelled from the spec: an identifier of the external AST, carrying
its name and an optional position (destructured as `Ident(_, pos)` in the
record branch of `add_term`). -/
structure Ident where
  name : String
  pos : Option TermPos
deriving DecidableEq, Repr

mutual

/-- Modelled from the spec: the external AST constructors this excerpt
inspects (`Term::Let`, `Term::Var`, `Term::Record`, `Term::RecRecord`,
`Term::MetaValue`), with `Other` standing for every remaining term kind,
all of which take the generic `Structure` path.  Record fields are kept
in declared order. -/
inductive Term where
  | Let (ident : Ident) (bound : RichTerm) (body : RichTerm)
  | Var (ident : Ident)
  | Record (fields : List (Ident × RichTerm))
  | RecRecord (fields : List (Ident × RichTerm))
  | MetaValue (meta : MetaValue)
  | Other

/-- Modelled from the spec: a term together with its position. -/
inductive RichTerm where
  | mk (term : Term) (pos : TermPos)

/-- Modelled from the spec: an annotation/contract payload; `value` is
the annotated value, stripped before the payload is stored. -/
inductive MetaValue where
  | mk (contracts : List Contract) (value : Option RichTerm)

/-- Modelled from the spec: a contract annotation; `types` is the
contract's type (the `contract.types.0` field access). -/
inductive Contract where
  | mk (types : AbsType)

/-- Modelled from the spec: the external type AST, restricted to the
constructors this excerpt touches (`Flat`, `Var`, `Sym`) plus an opaque
remainder. -/
inductive AbsType where
  | Flat (rt : RichTerm)
  | Var (ident : Ident)
  | Sym
  | OtherTy

end

def RichTerm.term : RichTerm → Term
  | .mk t _ => t

def RichTerm.pos : RichTerm → TermPos
  | .mk _ p => p

def MetaValue.contracts : MetaValue → List Contract
  | .mk cs _ => cs

def MetaValue.value : MetaValue → Option RichTerm
  | .mk _ v => v

def Contract.types : Contract → AbsType
  | .mk a => a

/-- Modelled from the spec: the unification-side type attached to each
item (`TypeWrapper`); only the `Concrete` applications appearing in this
excerpt are distinguished. -/
inductive TypeWrapper where
  | Concrete (a : AbsType)
  | OtherTW

/-- Modelled from the spec: `ScopeId` is an opaque scope identifier. -/
def ScopeId := Nat
deriving instance DecidableEq, Repr for ScopeId

/-- Modelled from the spec: `TermKind`, the tagged kind of a
linearization item. -/
inductive TermKind where
  | Structure
  | Declaration (name : String) (usages : List Nat)
  | Usage (decl : Option Nat)
  | Record (fields : List Nat)
  | RecordField (name : String) (body_pos : TermPos) (record : Nat) (usages : List Nat)
deriving DecidableEq, Repr

/-- Modelled from the spec: `LinearizationItem` (with the still-unresolved
type parameter instantiated to `TypeWrapper`). -/
structure LinearizationItem where
  id : Nat
  pos : TermPos
  ty : TypeWrapper
  scope : List ScopeId
  kind : TermKind
  meta : Option MetaValue

/-- `BuildingResource` from linearization.rs: the item sequence and the
scope map (the `HashMap` is modelled as an association list with
insert-replaces semantics). -/
structure BuildingResource where
  linearization : List LinearizationItem
  scope : List (List ScopeId × List Nat)

def emptyResource : BuildingResource := ⟨[], []⟩

def scopeLookup (m : List (List ScopeId × List Nat)) (k : List ScopeId) :
    Option (List Nat) :=
  (m.find? (fun p => decide (p.1 = k))).map Prod.snd

def scopeErase (m : List (List ScopeId × List Nat)) (k : List ScopeId) :
    List (List ScopeId × List Nat) :=
  m.filter (fun p => !(decide (p.1 = k)))

/-- `BuildingExt::push`: append the item's id to its scope bucket and the
item itself to the sequence. -/
def BuildingResource.push (lin : BuildingResource) (item : LinearizationItem) :
    BuildingResource :=
  { linearization := lin.linearization ++ [item],
    scope := (item.scope, (scopeLookup lin.scope item.scope).getD [] ++ [item.id])
               :: scopeErase lin.scope item.scope }

/-- `BuildingExt::add_usage` on the item list: append `usage` to the
usage list of the Declaration or RecordField at index `decl`.  The source
panics when the index is absent (`expect`) or the kind is neither
Declaration nor RecordField (`unreachable!`); both cases are modelled as
leaving the list unchanged and are proved unreachable for every state the
analysis actually builds (see `EnvOk` below). -/
def addUsage (l : List LinearizationItem) (decl usage : Nat) :
    List LinearizationItem :=
  match l[decl]? with
  | none => l
  | some item =>
    match item.kind with
    | .Declaration name usages =>
      l.set decl { item with kind := .Declaration name (usages ++ [usage]) }
    | .RecordField name bp rc usages =>
      l.set decl { item with kind := .RecordField name bp rc (usages ++ [usage]) }
    | _ => l

def BuildingResource.add_usage (lin : BuildingResource) (decl usage : Nat) :
    BuildingResource :=
  { lin with linearization := addUsage lin.linearization decl usage }

/-- `AnalysisHost`: the traversal-side state.  The environment is
modelled from the spec as a name-to-declaration-id list where an insert
shadows earlier entries and lookup takes the first match. -/
structure AnalysisHost where
  env : List (String × Nat)
  scope : List ScopeId
  meta : Option MetaValue

def AnalysisHost.new : AnalysisHost := ⟨[], [], none⟩

def envGet (env : List (String × Nat)) (n : String) : Option Nat :=
  (env.find? (fun p => p.1 == n)).map Prod.snd

/-- `AnalysisHost::scope`: fork the host for a nested scope — extended
scope path, copied environment, pending metadata reset. -/
def AnalysisHost.scopeEnter (host : AnalysisHost) (sid : ScopeId) : AnalysisHost :=
  { scope := host.scope ++ [sid], env := host.env, meta := none }

/-- Strip an annotation payload of its inner value
(`MetaValue { value: None, ..meta }`). -/
def stripMeta (m : MetaValue) : MetaValue := .mk m.contracts none

/-- The metadata attached to a record field item: the field value's own
annotation payload, stripped. -/
def fieldMeta : Term → Option MetaValue
  | .MetaValue m => some (stripMeta m)
  | _ => none

/-- The per-field items built in the record branch of `add_term`: ids are
drawn from the generator (`id_gen.take()` per field), the position is the
field name's position (falling back to the record's), the kind records
the owning record id and an empty usage list. -/
def mkFieldItems (recId : Nat) (pos : TermPos) (ty : TypeWrapper)
    (scope : List ScopeId) : Nat → List (Ident × RichTerm) → List LinearizationItem
  | _, [] => []
  | gen, (ident, rt) :: rest =>
    { id := gen, pos := ident.pos.getD pos, ty := ty,
      kind := .RecordField ident.name rt.pos recId [],
      scope := scope, meta := fieldMeta rt.term }
      :: mkFieldItems recId pos ty scope (gen + 1) rest

/-- One step of the contract loop in the MetaValue branch of `add_term`:
a flat contract that is a bare variable reference is recorded as its own
usage item; the accumulator's first component threads the id generator
(`id_gen.take()` per recorded contract). -/
def contractStep (env : List (String × Nat)) (scope : List ScopeId) (pos : TermPos)
    (acc : Nat × BuildingResource) (contract : Contract) : Nat × BuildingResource :=
  match contract.types with
  | .Flat rt =>
    match rt.term with
    | .Var ident =>
      let parent := envGet env ident.name
      let cid := acc.1
      let lin := acc.2.push { id := cid, pos := pos,
                              ty := .Concrete (.Var ident),
                              scope := scope,
                              kind := .Usage (parent.map (· + 1)),
                              meta := none }
      (cid + 1,
       match parent with
       | some p => lin.add_usage p cid
       | none => lin)
    | _ => acc
  | _ => acc

/-- `AnalysisHost::add_term`, as a state-passing function.  `fuel` bounds
the nesting depth of the record branch's recursion into record-valued
fields (the only self-call); with fuel at least the term's depth the
behavior is exactly the source's. -/
def addTerm (fuel : Nat) (host : AnalysisHost) (lin : BuildingResource)
    (term : Term) (pos : TermPos) (ty : TypeWrapper) :
    AnalysisHost × BuildingResource :=
  match fuel with
  | 0 => (host, lin)
  | fuel + 1 =>
    if pos = TermPos.None then (host, lin) else
    -- id_gen is seeded with the current sequence length; `id_gen.id()`
    -- peeks without incrementing.
    let id := lin.linearization.length
    match term with
    | .Let ident _ _ =>
      ({ env := (ident.name, lin.linearization.length) :: host.env,
         scope := host.scope, meta := none },
       lin.push { id := id, pos := pos, ty := ty, scope := host.scope,
                  kind := .Declaration ident.name [], meta := host.meta })
    | .Var ident =>
      let parent := envGet host.env ident.name
      let lin := lin.push { id := id, pos := pos, ty := ty, scope := host.scope,
                            kind := .Usage (parent.map (· + 1)), meta := host.meta }
      ({ host with meta := none },
       match parent with
       | some p => lin.add_usage p id
       | none => lin)
    | .Record fields | .RecRecord fields =>
      -- single contiguous allocation batch: the record id, then one id
      -- per field.
      let recId := id
      let items := mkFieldItems recId pos ty host.scope (recId + 1) fields
      let ids := items.map (fun item => item.id)
      let lin := lin.push { id := recId, pos := pos, ty := ty, scope := host.scope,
                            kind := .Record ids, meta := host.meta }
      let lin := items.foldl BuildingResource.push lin
      -- recurse into fields whose value is itself a record literal,
      -- using the field name's position.
      fields.foldl
        (fun acc f =>
          match f.2.term, f.1.pos with
          | .Record fs, some p =>
            addTerm fuel acc.1 acc.2 (.Record fs) p (.Concrete .Sym)
          | _, _ => acc)
        ({ host with meta := none }, lin)
    | .MetaValue m =>
      let stripped := stripMeta m
      let r := stripped.contracts.foldl (contractStep host.env host.scope pos) (id, lin)
      ({ host with meta := some stripped }, r.2)
    | .Other =>
      ({ host with meta := none },
       lin.push { id := id, pos := pos, ty := ty, scope := host.scope,
                  kind := .Structure, meta := host.meta })

/-- A typechecker run driving the linearizer: a sequence of `add_term`
observations interleaved with scope forks (`AnalysisHost::scope` yields a
child host for the inner calls; the parent host resumes afterwards). -/
inductive Driver where
  | nil
  | observe (t : Term) (pos : TermPos) (ty : TypeWrapper) (rest : Driver)
  | inScope (sid : ScopeId) (inner : Driver) (rest : Driver)

def runDriver (fuel : Nat) :
    AnalysisHost → BuildingResource → Driver → AnalysisHost × BuildingResource
  | host, lin, .nil => (host, lin)
  | host, lin, .observe t pos ty rest =>
    let (host, lin) := addTerm fuel host lin t pos ty
    runDriver fuel host lin rest
  | host, lin, .inScope sid inner rest =>
    let (_, lin) := runDriver fuel (host.scopeEnter sid) lin inner
    runDriver fuel host lin rest

end NLin

namespace NLin

/-- The sort key of `linearize`: `(source file id, start offset)`.  The
source hits `unreachable!` on a position-less item; `linearize` returns
`none` for such states instead (the key's value there is irrelevant). -/
def sortKey (item : LinearizationItem) : Nat × Nat :=
  match item.pos with
  | .Original sp => (sp.src_id, sp.start)
  | .Inherited sp => (sp.src_id, sp.start)
  | .None => (0, 0)

/-- Lexicographic order on sort keys, as Rust's tuple `Ord`. -/
def keyLe (a b : Nat × Nat) : Prop :=
  a.1 < b.1 ∨ (a.1 = b.1 ∧ a.2 ≤ b.2)

instance : DecidableRel keyLe := fun a b => by
  unfold keyLe; infer_instance

def itemLe (a b : LinearizationItem) : Prop := keyLe (sortKey a) (sortKey b)

instance : DecidableRel itemLe := fun a b => by
  unfold itemLe; infer_instance

theorem keyLe_refl (a : Nat × Nat) : keyLe a a := Or.inr ⟨rfl, Nat.le_refl _⟩

theorem keyLe_total (a b : Nat × Nat) : keyLe a b ∨ keyLe b a := by
  rcases Nat.lt_trichotomy a.1 b.1 with h | h | h
  · exact Or.inl (Or.inl h)
  · rcases Nat.le_total a.2 b.2 with h2 | h2
    · exact Or.inl (Or.inr ⟨h, h2⟩)
    · exact Or.inr (Or.inr ⟨h.symm, h2⟩)
  · exact Or.inr (Or.inl h)

theorem keyLe_trans {a b c : Nat × Nat} (h1 : keyLe a b) (h2 : keyLe b c) :
    keyLe a c := by
  rcases h1 with h1 | ⟨h1, h1'⟩
  · rcases h2 with h2 | ⟨h2, _⟩
    · exact Or.inl (Nat.lt_trans h1 h2)
    · exact Or.inl (h2 ▸ h1)
  · rcases h2 with h2 | ⟨h2, h2'⟩
    · exact Or.inl (h1 ▸ h2)
    · exact Or.inr ⟨h1.trans h2, Nat.le_trans h1' h2'⟩

instance : IsTotal LinearizationItem itemLe :=
  ⟨fun a b => keyLe_total (sortKey a) (sortKey b)⟩

instance : IsTrans LinearizationItem itemLe :=
  ⟨fun _ _ _ h1 h2 => keyLe_trans h1 h2⟩

/-- The frozen result (`Completed` of the external linearization module,
as produced by `Linearizer::linearize`): sorted items, the id-to-index
map built from the sorted enumeration, and the scope map carried over. -/
structure Completed where
  lin : List LinearizationItem
  id_mapping : List (Nat × Nat)
  scope_mapping : List (List ScopeId × List Nat)

/-- Per-item type resolution: `to_type` with the unification table and
name registry is external, so it is passed in as an opaque function on
the stored type. -/
def resolveItem (toType : TypeWrapper → TypeWrapper) (item : LinearizationItem) :
    LinearizationItem :=
  { item with ty := toType item.ty }

/-- `Linearizer::linearize`: stable-sort by `(file, start)`, build the
id-to-post-sort-index map, resolve every item's type, and freeze.  A
position-less item makes the source panic (`unreachable!`); that state is
`none` here. -/
def linearize (toType : TypeWrapper → TypeWrapper) (lin : BuildingResource) :
    Option Completed :=
  if lin.linearization.all (fun item => decide (item.pos ≠ TermPos.None)) then
    let sorted := List.insertionSort itemLe lin.linearization
    some { lin := sorted.map (resolveItem toType),
           id_mapping := sorted.enum.map (fun p => (p.2.id, p.1)),
           scope_mapping := lin.scope }
  else none

end NLin

namespace NLin

/-- The usage-id list carried by an item kind. -/
def usagesOf : TermKind → List Nat
  | .Declaration _ us => us
  | .RecordField _ _ _ us => us
  | _ => []

/-- Declaration-or-RecordField test (the kinds `add_usage` accepts). -/
def isDeclOrField : TermKind → Bool
  | .Declaration _ _ => true
  | .RecordField _ _ _ _ => true
  | _ => false

/-- C3's invariant: every item's id equals its index in the builder's
sequence. -/
def Indexed (l : List LinearizationItem) : Prop :=
  ∀ (i : Nat) (item : LinearizationItem), l[i]? = some item → item.id = i

/-- Usage-to-declaration direction of link consistency, with the `+ 1`
offset the builder records: a usage at index `i` whose link is `some lk`
has a Declaration or RecordField at index `lk - 1` whose usage list
holds `i`. -/
def BidirA (l : List LinearizationItem) : Prop :=
  ∀ (i : Nat) (item : LinearizationItem) (lk : Nat),
    l[i]? = some item → item.kind = .Usage (some lk) →
    ∃ p target, lk = p + 1 ∧ l[p]? = some target ∧
      isDeclOrField target.kind = true ∧ i ∈ usagesOf target.kind

/-- Declaration-to-usage direction: every id in an item's usage list is a
Usage item whose link is the owner's index plus one. -/
def BidirB (l : List LinearizationItem) : Prop :=
  ∀ (p : Nat) (target : LinearizationItem) (u : Nat),
    l[p]? = some target → u ∈ usagesOf target.kind →
    ∃ uitem, l[u]? = some uitem ∧ uitem.kind = .Usage (some (p + 1))

def Inv (l : List LinearizationItem) : Prop := Indexed l ∧ BidirA l ∧ BidirB l

/-- Environment validity: every binding maps to a Declaration item (the
environment only receives ids from the Let branch, which records the id
of the Declaration it pushes). -/
def EnvOk (env : List (String × Nat)) (l : List LinearizationItem) : Prop :=
  ∀ (nm : String) (p : Nat), (nm, p) ∈ env →
    ∃ (item : LinearizationItem) (name : String) (us : List Nat),
      l[p]? = some item ∧ item.kind = .Declaration name us

theorem envGet_mem {env : List (String × Nat)} {n : String} {p : Nat}
    (h : envGet env n = some p) : (n, p) ∈ env := by
  unfold envGet at h
  cases hf : env.find? (fun pr => pr.1 == n) with
  | none => simp [hf] at h
  | some pr =>
    have hm := List.mem_of_find?_eq_some hf
    have hp1 := List.find?_some hf
    simp [hf] at h
    have hn : pr.1 = n := by simpa using hp1
    have : pr = (n, p) := by
      cases pr
      simp_all
    exact this ▸ hm

theorem addUsage_eq_set {l : List LinearizationItem} {d : Nat}
    {item : LinearizationItem} {name : String} {us : List Nat} (u : Nat)
    (hd : l[d]? = some item) (hk : item.kind = .Declaration name us) :
    addUsage l d u = l.set d { item with kind := .Declaration name (us ++ [u]) } := by
  simp [addUsage, hd, hk]

/-- Appending a block of items whose ids continue the sequence and which
carry no usage links and empty usage lists preserves the invariants. -/
theorem inv_append_block {l ms : List LinearizationItem}
    (hInv : Inv l)
    (hids : ∀ j item, ms[j]? = some item → item.id = l.length + j)
    (hkinds : ∀ item ∈ ms, usagesOf item.kind = [] ∧
      ∀ lk, item.kind ≠ .Usage (some lk)) :
    Inv (l ++ ms) := by
  obtain ⟨hIdx, hA, hB⟩ := hInv
  refine ⟨?_, ?_, ?_⟩
  · unfold Indexed
    intro i item h
    by_cases hi : i < l.length
    · rw [List.getElem?_append_left hi] at h
      exact hIdx i item h
    · push_neg at hi
      rw [List.getElem?_append_right hi] at h
      have := hids _ _ h
      omega
  · unfold BidirA
    intro i item lk h hu
    by_cases hi : i < l.length
    · rw [List.getElem?_append_left hi] at h
      obtain ⟨p, target, hlk, hp, hdf, hmem⟩ := hA i item lk h hu
      have hplen : p < l.length := (List.getElem?_eq_some_iff.1 hp).1
      exact ⟨p, target, hlk, by rw [List.getElem?_append_left hplen]; exact hp,
             hdf, hmem⟩
    · push_neg at hi
      rw [List.getElem?_append_right hi] at h
      exact absurd hu ((hkinds item (List.getElem?_mem h)).2 lk)
  · unfold BidirB
    intro p target u hp hu
    by_cases hplen : p < l.length
    · rw [List.getElem?_append_left hplen] at hp
      obtain ⟨uitem, hui, huk⟩ := hB p target u hp hu
      have hul : u < l.length := (List.getElem?_eq_some_iff.1 hui).1
      exact ⟨uitem, by rw [List.getElem?_append_left hul]; exact hui, huk⟩
    · push_neg at hplen
      rw [List.getElem?_append_right hplen] at hp
      have h0 := (hkinds target (List.getElem?_mem hp)).1
      rw [h0] at hu
      exact absurd hu (List.not_mem_nil u)

theorem envOk_append {env : List (String × Nat)} {l ms : List LinearizationItem}
    (h : EnvOk env l) : EnvOk env (l ++ ms) := by
  unfold EnvOk
  intro nm p hmem
  obtain ⟨item, name, us, hp, hk⟩ := h nm p hmem
  have hlen : p < l.length := (List.getElem?_eq_some_iff.1 hp).1
  exact ⟨item, name, us, by rw [List.getElem?_append_left hlen]; exact hp, hk⟩

end NLin

namespace NLin

/-- Pushing a usage item that links `p + 1` and then running `add_usage p`
(the Var-branch shape, with `p` a Declaration index from the environment)
preserves the invariants and every environment's validity. -/
theorem inv_push_usage {l : List LinearizationItem} {p : Nat}
    {d : LinearizationItem} {name : String} {us : List Nat}
    (uit : LinearizationItem)
    (hInv : Inv l) (hd : l[p]? = some d) (hk : d.kind = .Declaration name us)
    (hid : uit.id = l.length) (huk : uit.kind = .Usage (some (p + 1))) :
    Inv (addUsage (l ++ [uit]) p l.length) ∧
    (∀ e, EnvOk e l → EnvOk e (addUsage (l ++ [uit]) p l.length)) := by
  obtain ⟨hIdx, hA, hB⟩ := hInv
  have hpl : p < l.length := (List.getElem?_eq_some_iff.1 hd).1
  have h1 : (l ++ [uit])[p]? = some d := by
    rw [List.getElem?_append_left hpl]; exact hd
  rw [addUsage_eq_set l.length h1 hk]
  have hdus : usagesOf d.kind = us := by rw [hk]; rfl
  have hchar : ∀ q : Nat,
      ((l ++ [uit]).set p { d with kind := .Declaration name (us ++ [l.length]) })[q]? =
      (if q = p then some { d with kind := .Declaration name (us ++ [l.length]) }
       else if q < l.length then l[q]?
       else if q = l.length then some uit else none) := by
    intro q
    by_cases hq : q = p
    · subst hq
      rw [if_pos rfl]
      exact List.getElem?_set_self (by simp; omega)
    · rw [if_neg hq, List.getElem?_set_ne (Ne.symm hq)]
      by_cases hql : q < l.length
      · rw [if_pos hql, List.getElem?_append_left hql]
      · rw [if_neg hql]
        by_cases hqn : q = l.length
        · subst hqn
          rw [if_pos rfl, List.getElem?_concat_length]
        · rw [if_neg hqn, List.getElem?_eq_none (by simp; omega)]
  constructor
  · refine ⟨?_, ?_, ?_⟩
    · unfold Indexed
      intro i item h
      rw [hchar i] at h
      split at h
      · rename_i hq
        cases h
        rw [hq]
        simpa using hIdx p d hd
      · split at h
        · exact hIdx i item h
        · split at h
          · rename_i hq2 hq3
            cases h
            rw [hid, hq3]
          · cases h
    · unfold BidirA
      intro i item lk h hu
      rw [hchar i] at h
      split at h
      · rename_i hq
        cases h
        simp at hu
      · split at h
        · -- i indexes an old item
          obtain ⟨p0, target, hlk, hp0, hdf, hmem⟩ := hA i item lk h hu
          by_cases hp0p : p0 = p
          · subst hp0p
            refine ⟨p0, { d with kind := .Declaration name (us ++ [l.length]) },
                    hlk, ?_, by simp [isDeclOrField], ?_⟩
            · rw [hchar p0, if_pos rfl]
            · have : target = d := by
                rw [hp0] at hd; exact Option.some.inj hd
              subst this
              simp only [usagesOf]
              rw [hdus] at hmem
              exact List.mem_append_left _ hmem
          · have hp0l : p0 < l.length := (List.getElem?_eq_some_iff.1 hp0).1
            refine ⟨p0, target, hlk, ?_, hdf, hmem⟩
            rw [hchar p0, if_neg hp0p, if_pos hp0l]
            exact hp0
        · split at h
          · -- i = l.length: the new usage item
            rename_i hq1 hq2 hq3
            cases h
            rw [huk] at hu
            cases hu
            refine ⟨p, { d with kind := .Declaration name (us ++ [l.length]) },
                    rfl, ?_, by simp [isDeclOrField], ?_⟩
            · rw [hchar p, if_pos rfl]
            · simp only [usagesOf]
              rw [hq3]
              exact List.mem_append_right _ (by simp)
          · cases h
    · unfold BidirB
      intro q target u hq hu
      rw [hchar q] at hq
      split at hq
      · rename_i hqp
        cases hq
        subst hqp
        simp only [usagesOf] at hu
        rcases List.mem_append.1 hu with hu | hu
        · obtain ⟨uitem, hui, hukind⟩ := hB q d u hd (by rw [hdus]; exact hu)
          have hul : u < l.length := (List.getElem?_eq_some_iff.1 hui).1
          have hup : u ≠ q := by
            intro he
            subst he
            rw [hui] at hd
            cases hd
            rw [hk] at hukind
            cases hukind
          refine ⟨uitem, ?_, hukind⟩
          rw [hchar u, if_neg hup, if_pos hul]
          exact hui
        · have hun : u = l.length := by simpa using hu
          subst hun
          refine ⟨uit, ?_, huk⟩
          rw [hchar l.length, if_neg (by omega), if_neg (by omega), if_pos rfl]
      · split at hq
        · -- old target away from p
          rename_i hqp hql
          obtain ⟨uitem, hui, hukind⟩ := hB q target u hq hu
          have hul : u < l.length := (List.getElem?_eq_some_iff.1 hui).1
          have hup : u ≠ p := by
            intro he
            subst he
            rw [hui] at hd
            cases hd
            rw [hk] at hukind
            cases hukind
          refine ⟨uitem, ?_, hukind⟩
          rw [hchar u, if_neg hup, if_pos hul]
          exact hui
        · split at hq
          · rename_i hqp hql hqn
            cases hq
            rw [huk] at hu
            simp [usagesOf] at hu
          · cases hq
  · intro e he
    unfold EnvOk
    intro nm q hmem
    obtain ⟨item, name0, us0, hq, hk0⟩ := he nm q hmem
    by_cases hqp : q = p
    · subst hqp
      refine ⟨{ d with kind := .Declaration name (us ++ [l.length]) },
              name, us ++ [l.length], ?_, rfl⟩
      rw [hchar q, if_pos rfl]
    · have hql : q < l.length := (List.getElem?_eq_some_iff.1 hq).1
      refine ⟨item, name0, us0, ?_, hk0⟩
      rw [hchar q, if_neg hqp, if_pos hql]
      exact hq

end NLin

namespace NLin

theorem push_linearization (lin : BuildingResource) (item : LinearizationItem) :
    (lin.push item).linearization = lin.linearization ++ [item] := rfl

theorem add_usage_linearization (lin : BuildingResource) (d u : Nat) :
    (lin.add_usage d u).linearization = addUsage lin.linearization d u := rfl

theorem addUsage_length (l : List LinearizationItem) (d u : Nat) :
    (addUsage l d u).length = l.length := by
  unfold addUsage
  cases h : l[d]? with
  | none => rfl
  | some item =>
    cases hk : item.kind <;> simp [hk, List.length_set]

theorem foldl_push_linearization (items : List LinearizationItem) :
    ∀ lin : BuildingResource,
    (items.foldl BuildingResource.push lin).linearization =
      lin.linearization ++ items := by
  induction items with
  | nil => intro lin; simp
  | cons x xs ihx =>
    intro lin
    simp only [List.foldl_cons]
    rw [ihx, push_linearization, List.append_assoc, List.singleton_append]

theorem mkFieldItems_id (recId : Nat) (pos : TermPos) (ty : TypeWrapper)
    (scope : List ScopeId) :
    ∀ (fs : List (Ident × RichTerm)) (g j : Nat) (item : LinearizationItem),
    (mkFieldItems recId pos ty scope g fs)[j]? = some item → item.id = g + j := by
  intro fs
  induction fs with
  | nil => intro g j item h; simp [mkFieldItems] at h
  | cons f rest ihf =>
    intro g j item h
    obtain ⟨ident, rt⟩ := f
    match j with
    | 0 =>
      simp [mkFieldItems] at h
      rw [← h]
      simp
    | j + 1 =>
      simp only [mkFieldItems, List.getElem?_cons_succ] at h
      have := ihf (g + 1) j item h
      omega

theorem mkFieldItems_kind (recId : Nat) (pos : TermPos) (ty : TypeWrapper)
    (scope : List ScopeId) :
    ∀ (fs : List (Ident × RichTerm)) (g : Nat) (item : LinearizationItem),
    item ∈ mkFieldItems recId pos ty scope g fs →
    ∃ nm bp, item.kind = .RecordField nm bp recId [] := by
  intro fs
  induction fs with
  | nil => intro g item h; simp [mkFieldItems] at h
  | cons f rest ihf =>
    intro g item h
    obtain ⟨ident, rt⟩ := f
    simp only [mkFieldItems, List.mem_cons] at h
    rcases h with h | h
    · exact ⟨ident.name, rt.pos, by rw [h]⟩
    · exact ihf (g + 1) item h

theorem mkFieldItems_length (recId : Nat) (pos : TermPos) (ty : TypeWrapper)
    (scope : List ScopeId) :
    ∀ (fs : List (Ident × RichTerm)) (g : Nat),
    (mkFieldItems recId pos ty scope g fs).length = fs.length := by
  intro fs
  induction fs with
  | nil => intro g; rfl
  | cons f rest ihf =>
    intro g
    obtain ⟨ident, rt⟩ := f
    simp [mkFieldItems, ihf]

/-- Environment monotonicity between two builder states: every valid
environment stays valid. -/
def Mono (l l' : List LinearizationItem) : Prop :=
  ∀ e, EnvOk e l → EnvOk e l'

theorem mono_refl (l : List LinearizationItem) : Mono l l := fun _ he => he

theorem mono_trans {l l' l'' : List LinearizationItem}
    (h1 : Mono l l') (h2 : Mono l' l'') : Mono l l'' :=
  fun e he => h2 e (h1 e he)

theorem envOk_cons {env : List (String × Nat)} {l : List LinearizationItem}
    {name : String} {item : LinearizationItem} {nm : String} {us : List Nat}
    (h : EnvOk env l) (hk : item.kind = .Declaration nm us) :
    EnvOk ((name, l.length) :: env) (l ++ [item]) := by
  intro nm' p hmem
  rcases List.mem_cons.1 hmem with he | he
  · rw [Prod.ext_iff] at he
    obtain ⟨-, hp⟩ := he
    subst hp
    exact ⟨item, nm, us, List.getElem?_concat_length l item, hk⟩
  · exact envOk_append h nm' p he

end NLin

namespace NLin

/-- Appending one item that continues the id sequence and carries no
usage data preserves the invariants. -/
theorem inv_push_single {l : List LinearizationItem} {item : LinearizationItem}
    (hInv : Inv l) (hid : item.id = l.length)
    (hus : usagesOf item.kind = [])
    (hnu : ∀ lk, item.kind ≠ .Usage (some lk)) :
    Inv (l ++ [item]) := by
  apply inv_append_block hInv
  · intro j it h
    match j with
    | 0 =>
      simp at h
      rw [← h, hid]
      omega
    | j + 1 => simp at h
  · intro it hm
    simp at hm
    subst hm
    exact ⟨hus, hnu⟩

theorem contractStep_inv (env : List (String × Nat)) (scope : List ScopeId)
    (pos : TermPos) (acc : Nat × BuildingResource) (c : Contract)
    (hlen : acc.1 = acc.2.linearization.length)
    (hInv : Inv acc.2.linearization) (hEnv : EnvOk env acc.2.linearization) :
    (contractStep env scope pos acc c).1 =
      (contractStep env scope pos acc c).2.linearization.length ∧
    Inv (contractStep env scope pos acc c).2.linearization ∧
    Mono acc.2.linearization (contractStep env scope pos acc c).2.linearization := by
  cases hc : c.types
  case Flat rt =>
    cases hrt : rt.term
    case Var ident =>
      cases hpar : envGet env ident.name
      case none =>
        simp only [contractStep, hc, hrt, hpar, Option.map_none']
        refine ⟨?_, ?_, ?_⟩
        · simp [push_linearization, hlen]
        · rw [push_linearization]
          exact inv_push_single hInv (by simp [hlen]) rfl (fun lk h => by cases h)
        · rw [push_linearization]
          exact fun e he => envOk_append he
      case some p =>
        obtain ⟨d, nm, us, hd, hk⟩ := hEnv ident.name p (envGet_mem hpar)
        simp only [contractStep, hc, hrt, hpar, Option.map_some']
        have hcore := inv_push_usage
            { id := acc.1, pos := pos, ty := .Concrete (.Var ident), scope := scope,
              kind := .Usage (some (p + 1)), meta := none }
          hInv hd hk (by simp [hlen]) rfl
        rw [← hlen] at hcore
        refine ⟨?_, ?_, ?_⟩
        · rw [add_usage_linearization, push_linearization, addUsage_length]
          simp [hlen]
        · rw [add_usage_linearization, push_linearization]
          exact hcore.1
        · rw [add_usage_linearization, push_linearization]
          exact hcore.2
    all_goals simp only [contractStep, hc, hrt]; exact ⟨hlen, hInv, mono_refl _⟩
  all_goals simp only [contractStep, hc]; exact ⟨hlen, hInv, mono_refl _⟩

theorem metaFold_inv (env : List (String × Nat)) (scope : List ScopeId)
    (pos : TermPos) :
    ∀ (cs : List Contract) (acc : Nat × BuildingResource),
    acc.1 = acc.2.linearization.length →
    Inv acc.2.linearization → EnvOk env acc.2.linearization →
    Inv (cs.foldl (contractStep env scope pos) acc).2.linearization ∧
    Mono acc.2.linearization
      (cs.foldl (contractStep env scope pos) acc).2.linearization := by
  intro cs
  induction cs with
  | nil => intro acc h1 h2 h3; exact ⟨h2, mono_refl _⟩
  | cons c cs ihc =>
    intro acc h1 h2 h3
    simp only [List.foldl_cons]
    obtain ⟨hl', hI', hM'⟩ := contractStep_inv env scope pos acc c h1 h2 h3
    obtain ⟨hI'', hM''⟩ := ihc (contractStep env scope pos acc c) hl' hI' (hM' env h3)
    exact ⟨hI'', mono_trans hM' hM''⟩

/-- Folding any step that preserves the invariants preserves them. -/
theorem foldl_step_inv {β : Type}
    (step : (AnalysisHost × BuildingResource) → β → (AnalysisHost × BuildingResource))
    (hstep : ∀ acc b, Inv acc.2.linearization → EnvOk acc.1.env acc.2.linearization →
      (Inv (step acc b).2.linearization ∧
       EnvOk (step acc b).1.env (step acc b).2.linearization) ∧
      Mono acc.2.linearization (step acc b).2.linearization) :
    ∀ (xs : List β) (acc : AnalysisHost × BuildingResource),
    Inv acc.2.linearization → EnvOk acc.1.env acc.2.linearization →
    (Inv (xs.foldl step acc).2.linearization ∧
     EnvOk (xs.foldl step acc).1.env (xs.foldl step acc).2.linearization) ∧
    Mono acc.2.linearization (xs.foldl step acc).2.linearization := by
  intro xs
  induction xs with
  | nil => intro acc h1 h2; exact ⟨⟨h1, h2⟩, mono_refl _⟩
  | cons x xs ihx =>
    intro acc h1 h2
    simp only [List.foldl_cons]
    obtain ⟨⟨hI', hE'⟩, hM'⟩ := hstep acc x h1 h2
    obtain ⟨⟨hI'', hE''⟩, hM''⟩ := ihx (step acc x) hI' hE'
    exact ⟨⟨hI'', hE''⟩, mono_trans hM' hM''⟩

end NLin

namespace NLin

theorem addTerm_let_eq (fuel : Nat) (host : AnalysisHost) (lin : BuildingResource)
    (ident : Ident) (b1 b2 : RichTerm) (pos : TermPos) (ty : TypeWrapper)
    (hpos : ¬ pos = TermPos.None) :
    addTerm (fuel + 1) host lin (.Let ident b1 b2) pos ty =
      ({ env := (ident.name, lin.linearization.length) :: host.env,
         scope := host.scope, meta := none },
       lin.push { id := lin.linearization.length, pos := pos, ty := ty,
                  scope := host.scope, kind := .Declaration ident.name [],
                  meta := host.meta }) := by
  simp [addTerm, hpos]

theorem addTerm_var_some_eq (fuel : Nat) (host : AnalysisHost) (lin : BuildingResource)
    (ident : Ident) (pos : TermPos) (ty : TypeWrapper) (p : Nat)
    (hpos : ¬ pos = TermPos.None) (hpar : envGet host.env ident.name = some p) :
    addTerm (fuel + 1) host lin (.Var ident) pos ty =
      ({ host with meta := none },
       (lin.push { id := lin.linearization.length, pos := pos, ty := ty,
                   scope := host.scope, kind := .Usage (some (p + 1)),
                   meta := host.meta }).add_usage p lin.linearization.length) := by
  simp [addTerm, hpos, hpar]

theorem addTerm_var_none_eq (fuel : Nat) (host : AnalysisHost) (lin : BuildingResource)
    (ident : Ident) (pos : TermPos) (ty : TypeWrapper)
    (hpos : ¬ pos = TermPos.None) (hpar : envGet host.env ident.name = none) :
    addTerm (fuel + 1) host lin (.Var ident) pos ty =
      ({ host with meta := none },
       lin.push { id := lin.linearization.length, pos := pos, ty := ty,
                  scope := host.scope, kind := .Usage none,
                  meta := host.meta }) := by
  simp [addTerm, hpos, hpar]

theorem addTerm_record_eq (fuel : Nat) (host : AnalysisHost) (lin : BuildingResource)
    (fields : List (Ident × RichTerm)) (pos : TermPos) (ty : TypeWrapper)
    (hpos : ¬ pos = TermPos.None) :
    addTerm (fuel + 1) host lin (.Record fields) pos ty =
      fields.foldl
        (fun acc f =>
          match f.2.term, f.1.pos with
          | .Record fs, some p =>
            addTerm fuel acc.1 acc.2 (.Record fs) p (.Concrete .Sym)
          | _, _ => acc)
        ({ host with meta := none },
         (mkFieldItems lin.linearization.length pos ty host.scope
             (lin.linearization.length + 1) fields).foldl BuildingResource.push
           (lin.push { id := lin.linearization.length, pos := pos, ty := ty,
                       scope := host.scope,
                       kind := .Record ((mkFieldItems lin.linearization.length pos ty
                           host.scope (lin.linearization.length + 1) fields).map
                           (fun item => item.id)),
                       meta := host.meta })) := by
  simp [addTerm, hpos]

theorem addTerm_recrecord_eq (fuel : Nat) (host : AnalysisHost) (lin : BuildingResource)
    (fields : List (Ident × RichTerm)) (pos : TermPos) (ty : TypeWrapper)
    (hpos : ¬ pos = TermPos.None) :
    addTerm (fuel + 1) host lin (.RecRecord fields) pos ty =
      fields.foldl
        (fun acc f =>
          match f.2.term, f.1.pos with
          | .Record fs, some p =>
            addTerm fuel acc.1 acc.2 (.Record fs) p (.Concrete .Sym)
          | _, _ => acc)
        ({ host with meta := none },
         (mkFieldItems lin.linearization.length pos ty host.scope
             (lin.linearization.length + 1) fields).foldl BuildingResource.push
           (lin.push { id := lin.linearization.length, pos := pos, ty := ty,
                       scope := host.scope,
                       kind := .Record ((mkFieldItems lin.linearization.length pos ty
                           host.scope (lin.linearization.length + 1) fields).map
                           (fun item => item.id)),
                       meta := host.meta })) := by
  simp [addTerm, hpos]

theorem addTerm_meta_eq (fuel : Nat) (host : AnalysisHost) (lin : BuildingResource)
    (m : MetaValue) (pos : TermPos) (ty : TypeWrapper)
    (hpos : ¬ pos = TermPos.None) :
    addTerm (fuel + 1) host lin (.MetaValue m) pos ty =
      ({ host with meta := some (stripMeta m) },
       ((stripMeta m).contracts.foldl (contractStep host.env host.scope pos)
         (lin.linearization.length, lin)).2) := by
  simp [addTerm, hpos]

theorem addTerm_other_eq (fuel : Nat) (host : AnalysisHost) (lin : BuildingResource)
    (pos : TermPos) (ty : TypeWrapper)
    (hpos : ¬ pos = TermPos.None) :
    addTerm (fuel + 1) host lin .Other pos ty =
      ({ host with meta := none },
       lin.push { id := lin.linearization.length, pos := pos, ty := ty,
                  scope := host.scope, kind := .Structure,
                  meta := host.meta }) := by
  simp [addTerm, hpos]

end NLin

namespace NLin

theorem record_lin_eq (lin : BuildingResource) (recItem : LinearizationItem)
    (items : List LinearizationItem) :
    (items.foldl BuildingResource.push (lin.push recItem)).linearization =
      lin.linearization ++ (recItem :: items) := by
  rw [foldl_push_linearization, push_linearization, List.append_assoc,
      List.singleton_append]

/-- The record branch's contiguous batch — the record item at the current
length followed by the field items — preserves the invariants. -/
theorem inv_record_block {l : List LinearizationItem} (hInv : Inv l)
    (pos : TermPos) (ty : TypeWrapper) (scope : List ScopeId)
    (fields : List (Ident × RichTerm)) (meta : Option MetaValue) (ids : List Nat) :
    Inv (l ++ ({ id := l.length, pos := pos, ty := ty, scope := scope,
                 kind := .Record ids, meta := meta } ::
               mkFieldItems l.length pos ty scope (l.length + 1) fields)) := by
  apply inv_append_block hInv
  · intro j it h
    match j with
    | 0 =>
      simp at h
      rw [← h]
      simp
    | j + 1 =>
      rw [List.getElem?_cons_succ] at h
      have := mkFieldItems_id l.length pos ty scope fields (l.length + 1) j it h
      omega
  · intro it hm
    rcases List.mem_cons.1 hm with hm | hm
    · subst hm
      exact ⟨rfl, fun lk h => by cases h⟩
    · obtain ⟨nm, bp, hkd⟩ := mkFieldItems_kind l.length pos ty scope fields _ it hm
      rw [hkd]
      exact ⟨rfl, fun lk h => by cases h⟩

/-- Preservation of the builder invariants and environment validity by a
single `add_term` call: the item-id/index coincidence, both directions of
the offset-corrected usage-link consistency, and validity of every
environment derived from the pre-state. -/
theorem addTerm_inv (fuel : Nat) :
    ∀ (host : AnalysisHost) (lin : BuildingResource) (t : Term) (pos : TermPos)
      (ty : TypeWrapper),
    Inv lin.linearization → EnvOk host.env lin.linearization →
    (Inv (addTerm fuel host lin t pos ty).2.linearization ∧
     EnvOk (addTerm fuel host lin t pos ty).1.env
       (addTerm fuel host lin t pos ty).2.linearization) ∧
    Mono lin.linearization (addTerm fuel host lin t pos ty).2.linearization := by
  induction fuel with
  | zero =>
    intro host lin t pos ty hInv hEnv
    exact ⟨⟨hInv, hEnv⟩, mono_refl _⟩
  | succ fuel ih =>
    intro host lin t pos ty hInv hEnv
    by_cases hpos : pos = TermPos.None
    · simp only [addTerm, if_pos hpos]
      exact ⟨⟨hInv, hEnv⟩, mono_refl _⟩
    · cases t with
      | Let ident b1 b2 =>
        rw [addTerm_let_eq fuel host lin ident b1 b2 pos ty hpos]
        simp only [push_linearization]
        refine ⟨⟨?_, ?_⟩, ?_⟩
        · exact inv_push_single hInv rfl rfl (fun lk h => by cases h)
        · exact envOk_cons hEnv rfl
        · exact fun e he => envOk_append he
      | Var ident =>
        cases hpar : envGet host.env ident.name with
        | none =>
          rw [addTerm_var_none_eq fuel host lin ident pos ty hpos hpar]
          simp only [push_linearization]
          refine ⟨⟨?_, ?_⟩, ?_⟩
          · exact inv_push_single hInv rfl rfl (fun lk h => by cases h)
          · exact envOk_append hEnv
          · exact fun e he => envOk_append he
        | some p =>
          obtain ⟨d, nm, us, hd, hk⟩ := hEnv ident.name p (envGet_mem hpar)
          have hcore := inv_push_usage
              { id := lin.linearization.length, pos := pos, ty := ty,
                scope := host.scope, kind := .Usage (some (p + 1)),
                meta := host.meta } hInv hd hk rfl rfl
          rw [addTerm_var_some_eq fuel host lin ident pos ty p hpos hpar]
          simp only [add_usage_linearization, push_linearization]
          exact ⟨⟨hcore.1, hcore.2 host.env hEnv⟩, hcore.2⟩
      | MetaValue m =>
        rw [addTerm_meta_eq fuel host lin m pos ty hpos]
        obtain ⟨hI, hM⟩ := metaFold_inv host.env host.scope pos
          (stripMeta m).contracts (lin.linearization.length, lin) rfl hInv hEnv
        exact ⟨⟨hI, hM host.env hEnv⟩, hM⟩
      | Other =>
        rw [addTerm_other_eq fuel host lin pos ty hpos]
        simp only [push_linearization]
        refine ⟨⟨?_, ?_⟩, ?_⟩
        · exact inv_push_single hInv rfl rfl (fun lk h => by cases h)
        · exact envOk_append hEnv
        · exact fun e he => envOk_append he
      | Record fields =>
        rw [addTerm_record_eq fuel host lin fields pos ty hpos]
        have hlin2 := record_lin_eq lin
          { id := lin.linearization.length, pos := pos, ty := ty,
            scope := host.scope,
            kind := .Record ((mkFieldItems lin.linearization.length pos ty
                host.scope (lin.linearization.length + 1) fields).map
                (fun item => item.id)),
            meta := host.meta }
          (mkFieldItems lin.linearization.length pos ty host.scope
            (lin.linearization.length + 1) fields)
        obtain ⟨⟨hI2, hE2⟩, hM2⟩ :=
          foldl_step_inv
            (fun (acc : AnalysisHost × BuildingResource) (f : Ident × RichTerm) =>
              match f.2.term, f.1.pos with
              | .Record fs, some p =>
                addTerm fuel acc.1 acc.2 (.Record fs) p (.Concrete .Sym)
              | _, _ => acc)
            (by
              intro acc f h1 h2
              cases hft : f.2.term
              case Record fs =>
                cases hfp : f.1.pos
                case some p =>
                  simp only [hft, hfp]
                  exact ih acc.1 acc.2 (.Record fs) p (.Concrete .Sym) h1 h2
                case none =>
                  simp only [hft, hfp]
                  exact ⟨⟨h1, h2⟩, mono_refl _⟩
              all_goals
                cases hfp : f.1.pos <;>
                  (simp only [hft, hfp]; exact ⟨⟨h1, h2⟩, mono_refl _⟩))
            fields
            ({ host with meta := none },
             (mkFieldItems lin.linearization.length pos ty host.scope
                 (lin.linearization.length + 1) fields).foldl BuildingResource.push
               (lin.push { id := lin.linearization.length, pos := pos, ty := ty,
                           scope := host.scope,
                           kind := .Record ((mkFieldItems lin.linearization.length
                               pos ty host.scope (lin.linearization.length + 1)
                               fields).map (fun item => item.id)),
                           meta := host.meta }))
            (by
              rw [hlin2]
              exact inv_record_block hInv pos ty host.scope fields host.meta _)
            (by
              rw [hlin2]
              exact envOk_append hEnv)
        refine ⟨⟨hI2, hE2⟩, mono_trans ?_ hM2⟩
        intro e he
        rw [hlin2]
        exact envOk_append he
      | RecRecord fields =>
        rw [addTerm_recrecord_eq fuel host lin fields pos ty hpos]
        have hlin2 := record_lin_eq lin
          { id := lin.linearization.length, pos := pos, ty := ty,
            scope := host.scope,
            kind := .Record ((mkFieldItems lin.linearization.length pos ty
                host.scope (lin.linearization.length + 1) fields).map
                (fun item => item.id)),
            meta := host.meta }
          (mkFieldItems lin.linearization.length pos ty host.scope
            (lin.linearization.length + 1) fields)
        obtain ⟨⟨hI2, hE2⟩, hM2⟩ :=
          foldl_step_inv
            (fun (acc : AnalysisHost × BuildingResource) (f : Ident × RichTerm) =>
              match f.2.term, f.1.pos with
              | .Record fs, some p =>
                addTerm fuel acc.1 acc.2 (.Record fs) p (.Concrete .Sym)
              | _, _ => acc)
            (by
              intro acc f h1 h2
              cases hft : f.2.term
              case Record fs =>
                cases hfp : f.1.pos
                case some p =>
                  simp only [hft, hfp]
                  exact ih acc.1 acc.2 (.Record fs) p (.Concrete .Sym) h1 h2
                case none =>
                  simp only [hft, hfp]
                  exact ⟨⟨h1, h2⟩, mono_refl _⟩
              all_goals
                cases hfp : f.1.pos <;>
                  (simp only [hft, hfp]; exact ⟨⟨h1, h2⟩, mono_refl _⟩))
            fields
            ({ host with meta := none },
             (mkFieldItems lin.linearization.length pos ty host.scope
                 (lin.linearization.length + 1) fields).foldl BuildingResource.push
               (lin.push { id := lin.linearization.length, pos := pos, ty := ty,
                           scope := host.scope,
                           kind := .Record ((mkFieldItems lin.linearization.length
                               pos ty host.scope (lin.linearization.length + 1)
                               fields).map (fun item => item.id)),
                           meta := host.meta }))
            (by
              rw [hlin2]
              exact inv_record_block hInv pos ty host.scope fields host.meta _)
            (by
              rw [hlin2]
              exact envOk_append hEnv)
        refine ⟨⟨hI2, hE2⟩, mono_trans ?_ hM2⟩
        intro e he
        rw [hlin2]
        exact envOk_append he

end NLin

namespace NLin

theorem inv_nil : Inv ([] : List LinearizationItem) := by
  refine ⟨?_, ?_, ?_⟩
  · intro i item h
    simp at h
  · intro i item lk h hu
    simp at h
  · intro p target u hp hu
    simp at hp

theorem envOk_nil (l : List LinearizationItem) : EnvOk [] l := by
  intro nm p h
  simp at h

/-- Invariant preservation over a whole driver run. -/
theorem runDriver_inv (fuel : Nat) :
    ∀ (d : Driver) (host : AnalysisHost) (lin : BuildingResource),
    Inv lin.linearization → EnvOk host.env lin.linearization →
    (Inv (runDriver fuel host lin d).2.linearization ∧
     EnvOk (runDriver fuel host lin d).1.env
       (runDriver fuel host lin d).2.linearization) ∧
    Mono lin.linearization (runDriver fuel host lin d).2.linearization := by
  intro d
  induction d with
  | nil =>
    intro host lin h1 h2
    exact ⟨⟨h1, h2⟩, mono_refl _⟩
  | observe t pos ty rest ihr =>
    intro host lin h1 h2
    simp only [runDriver]
    obtain ⟨⟨hI, hE⟩, hM⟩ := addTerm_inv fuel host lin t pos ty h1 h2
    obtain ⟨⟨hI2, hE2⟩, hM2⟩ := ihr (addTerm fuel host lin t pos ty).1
      (addTerm fuel host lin t pos ty).2 hI hE
    exact ⟨⟨hI2, hE2⟩, mono_trans hM hM2⟩
  | inScope sid inner rest ihin ihr =>
    intro host lin h1 h2
    simp only [runDriver]
    obtain ⟨⟨hI, hE⟩, hM⟩ := ihin (host.scopeEnter sid) lin h1 h2
    obtain ⟨⟨hI2, hE2⟩, hM2⟩ := ihr host
      (runDriver fuel (host.scopeEnter sid) lin inner).2 hI (hM host.env h2)
    exact ⟨⟨hI2, hE2⟩, mono_trans hM hM2⟩

/-- C3: after any sequence of observations (with any scope forks),
every item's id equals its index in the builder's sequence — ids are
drawn from a counter seeded with the current length, and items are
appended in allocation order with nothing interleaved. -/
theorem c3_ids_equal_indexes (fuel : Nat) (d : Driver) :
    Indexed (runDriver fuel AnalysisHost.new emptyResource d).2.linearization :=
  (runDriver_inv fuel d AnalysisHost.new emptyResource inv_nil
    (envOk_nil _)).1.1.1

end NLin

namespace NLin

theorem resolveItem_id (f : TypeWrapper → TypeWrapper) (it : LinearizationItem) :
    (resolveItem f it).id = it.id := rfl

theorem resolveItem_kind (f : TypeWrapper → TypeWrapper) (it : LinearizationItem) :
    (resolveItem f it).kind = it.kind := rfl

theorem linearize_some {toType : TypeWrapper → TypeWrapper}
    {b : BuildingResource} {c : Completed}
    (h : linearize toType b = some c) :
    c.lin = (List.insertionSort itemLe b.linearization).map (resolveItem toType) := by
  simp only [linearize] at h
  split at h
  · cases h
    rfl
  · cases h

theorem mem_completed {toType : TypeWrapper → TypeWrapper}
    {b : BuildingResource} {c : Completed}
    (h : linearize toType b = some c) (x : LinearizationItem) :
    x ∈ c.lin ↔ ∃ y, y ∈ b.linearization ∧ resolveItem toType y = x := by
  rw [linearize_some h]
  constructor
  · intro hx
    obtain ⟨y, hy, hyx⟩ := List.mem_map.1 hx
    exact ⟨y, (List.mem_insertionSort itemLe).1 hy, hyx⟩
  · rintro ⟨y, hy, hyx⟩
    exact List.mem_map.2 ⟨y, (List.mem_insertionSort itemLe).2 hy, hyx⟩

/-- C1 (amended): in every completed linearization produced by a driver
run, a Usage item's declaration link points one past its declaration —
the item whose id is the link minus one is a Declaration or RecordField
whose usage list contains the usage's id — and conversely every usage-id
recorded on a Declaration or RecordField belongs to a Usage item whose
link is that owner's id plus one. -/
theorem c1_usage_link_bidir_amended (fuel : Nat) (d : Driver)
    (toType : TypeWrapper → TypeWrapper) (c : Completed)
    (h : linearize toType (runDriver fuel AnalysisHost.new emptyResource d).2 = some c) :
    (∀ item, item ∈ c.lin → ∀ lk, item.kind = .Usage (some lk) →
      ∃ target, target ∈ c.lin ∧ target.id + 1 = lk ∧
        isDeclOrField target.kind = true ∧ item.id ∈ usagesOf target.kind) ∧
    (∀ target, target ∈ c.lin → ∀ u, u ∈ usagesOf target.kind →
      ∃ uitem, uitem ∈ c.lin ∧ uitem.id = u ∧
        uitem.kind = .Usage (some (target.id + 1))) := by
  obtain ⟨⟨⟨hIdx, hA, hB⟩, -⟩, -⟩ :=
    runDriver_inv fuel d AnalysisHost.new emptyResource inv_nil (envOk_nil _)
  constructor
  · intro item hmem lk hk
    obtain ⟨y, hy, hyx⟩ := (mem_completed h item).1 hmem
    obtain ⟨i, hiy⟩ := List.mem_iff_getElem?.1 hy
    have hyk : y.kind = .Usage (some lk) := by
      rw [← resolveItem_kind toType y, hyx]
      exact hk
    obtain ⟨p, target, hlk, hp, hdf, hin⟩ := hA i y lk hiy hyk
    refine ⟨resolveItem toType target,
            (mem_completed h _).2 ⟨target, List.getElem?_mem hp, rfl⟩, ?_, ?_, ?_⟩
    · rw [resolveItem_id, hIdx p target hp, hlk]
    · rw [resolveItem_kind]
      exact hdf
    · rw [resolveItem_kind, ← hyx, resolveItem_id, hIdx i y hiy]
      exact hin
  · intro target hmem u hu
    obtain ⟨y, hy, hyx⟩ := (mem_completed h target).1 hmem
    obtain ⟨p, hpy⟩ := List.mem_iff_getElem?.1 hy
    have hyu : u ∈ usagesOf y.kind := by
      rw [← resolveItem_kind toType y, hyx]
      exact hu
    obtain ⟨uitem, hui, huk⟩ := hB p y u hpy hyu
    refine ⟨resolveItem toType uitem,
            (mem_completed h _).2 ⟨uitem, List.getElem?_mem hui, rfl⟩, ?_, ?_⟩
    · rw [resolveItem_id]
      exact hIdx u uitem hui
    · rw [resolveItem_kind, ← hyx, resolveItem_id, hIdx p y hpy]
      exact huk

/-- Positions used by the worked examples: distinct starts in file 0. -/
def posnAt (k : Nat) : TermPos := .Original ⟨0, k, k + 1⟩

def exRich : RichTerm := .mk .Other TermPos.None

def exIdentX : Ident := ⟨"x", none⟩

/-- A let binding of `x`, its bound value, then a use of `x`: the
traversal order the typechecker produces for `let x = <value> in x`. -/
def exDriverC1 : Driver :=
  .observe (.Let exIdentX exRich exRich) (posnAt 0) .OtherTW
    (.observe .Other (posnAt 1) .OtherTW
      (.observe (.Var exIdentX) (posnAt 2) .OtherTW .nil))

def exItem0 : LinearizationItem :=
  { id := 0, pos := posnAt 0, ty := .OtherTW, scope := [],
    kind := .Declaration "x" [2], meta := none }

def exItem1 : LinearizationItem :=
  { id := 1, pos := posnAt 1, ty := .OtherTW, scope := [],
    kind := .Structure, meta := none }

def exItem2 : LinearizationItem :=
  { id := 2, pos := posnAt 2, ty := .OtherTW, scope := [],
    kind := .Usage (some 1), meta := none }

def exCompletedC1 : Completed :=
  { lin := [exItem0, exItem1, exItem2],
    id_mapping := [(0, 0), (1, 1), (2, 2)],
    scope_mapping := [([], [0, 1, 2])] }

/-- The claim as stated: the link id itself indexes a Declaration or
RecordField holding the usage's id. -/
def C1AsStated (c : Completed) : Prop :=
  ∀ item, item ∈ c.lin → ∀ lk, item.kind = .Usage (some lk) →
    ∃ target, target ∈ c.lin ∧ target.id = lk ∧
      isDeclOrField target.kind = true ∧ item.id ∈ usagesOf target.kind

/-- C1 (counterexample): for `let x = <value> in x` the usage item's
link is `some 1`, but the item with id 1 is the Structure item for the
bound value, not a Declaration or RecordField: the builder stores
`declaration-id + 1` in the link while appending the usage's id to the
usage list of the item at `declaration-id`, so the claim as stated fails
at this input. -/
theorem c1_counterexample :
    linearize (fun t => t) (runDriver 9 AnalysisHost.new emptyResource exDriverC1).2 =
      some exCompletedC1 ∧
    ¬ C1AsStated exCompletedC1 := by
  constructor
  · rfl
  · intro hclaim
    obtain ⟨target, htmem, hid, hdf, -⟩ :=
      hclaim exItem2 (by simp [exCompletedC1]) 1 rfl
    have : target = exItem0 ∨ target = exItem1 ∨ target = exItem2 := by
      simpa [exCompletedC1] using htmem
    rcases this with rfl | rfl | rfl
    · exact absurd hid (by simp [exItem0])
    · exact absurd hdf (by simp [exItem1, isDeclOrField])
    · exact absurd hid (by simp [exItem2])

theorem c1_witness :
    (∀ item, item ∈ exCompletedC1.lin → ∀ lk, item.kind = .Usage (some lk) →
      ∃ target, target ∈ exCompletedC1.lin ∧ target.id + 1 = lk ∧
        isDeclOrField target.kind = true ∧ item.id ∈ usagesOf target.kind) ∧
    (∀ target, target ∈ exCompletedC1.lin → ∀ u, u ∈ usagesOf target.kind →
      ∃ uitem, uitem ∈ exCompletedC1.lin ∧ uitem.id = u ∧
        uitem.kind = .Usage (some (target.id + 1))) :=
  c1_usage_link_bidir_amended 9 exDriverC1 (fun t => t) exCompletedC1 rfl

end NLin

namespace NLin

theorem filter_orderedInsert (k : Nat × Nat) (a : LinearizationItem) :
    ∀ l : List LinearizationItem,
    (List.orderedInsert itemLe a l).filter (fun x => decide (sortKey x = k)) =
      (a :: l).filter (fun x => decide (sortKey x = k)) := by
  intro l
  induction l with
  | nil => rfl
  | cons b t ihb =>
    by_cases hab : itemLe a b
    · rw [List.orderedInsert_of_le _ _ hab]
    · simp only [List.orderedInsert, if_neg hab]
      by_cases ha : sortKey a = k
      · by_cases hb : sortKey b = k
        · exact absurd (show itemLe a b by
            unfold itemLe
            rw [ha, hb]
            exact keyLe_refl k) hab
        · simp [List.filter_cons, ha, hb, ihb]
      · simp [List.filter_cons, ha, ihb]

theorem filter_insertionSort (k : Nat × Nat) :
    ∀ l : List LinearizationItem,
    (List.insertionSort itemLe l).filter (fun x => decide (sortKey x = k)) =
      l.filter (fun x => decide (sortKey x = k)) := by
  intro l
  induction l with
  | nil => rfl
  | cons b t ihb =>
    simp only [List.insertionSort]
    rw [filter_orderedInsert, List.filter_cons, List.filter_cons, ihb]

end NLin

namespace NLin

/-- C9: finalizing a builder state whose items all carry a resolved
position succeeds, the completed item sequence is non-decreasing under
the `(source file id, start offset)` key, and items with equal keys keep
their relative builder order — stability, stated as the filter identity:
for every key, the completed items with that key are exactly the builder
items with that key, in builder order (type-resolved). -/
theorem c9_sorted_stable (toType : TypeWrapper → TypeWrapper)
    (b : BuildingResource)
    (hpos : ∀ item ∈ b.linearization, item.pos ≠ TermPos.None) :
    ∃ c, linearize toType b = some c ∧
      c.lin.Pairwise (fun x y => keyLe (sortKey x) (sortKey y)) ∧
      ∀ k, c.lin.filter (fun x => decide (sortKey x = k)) =
        (b.linearization.filter (fun x => decide (sortKey x = k))).map
          (resolveItem toType) := by
  have hall : b.linearization.all (fun item => decide (item.pos ≠ TermPos.None)) = true := by
    rw [List.all_eq_true]
    intro x hx
    exact decide_eq_true (hpos x hx)
  refine ⟨{ lin := (List.insertionSort itemLe b.linearization).map (resolveItem toType),
            id_mapping := (List.insertionSort itemLe b.linearization).enum.map
              (fun p => (p.2.id, p.1)),
            scope_mapping := b.scope }, ?_, ?_, ?_⟩
  · simp only [linearize]
    rw [if_pos hall]
  · have hs : List.Sorted itemLe (List.insertionSort itemLe b.linearization) :=
      List.sorted_insertionSort itemLe b.linearization
    rw [List.pairwise_map]
    exact hs
  · intro k
    rw [List.filter_map]
    have hcomm : ∀ x ∈ List.insertionSort itemLe b.linearization,
        ((fun x => decide (sortKey x = k)) ∘ resolveItem toType) x =
          decide (sortKey x = k) := fun x hx => rfl
    rw [List.filter_congr hcomm, filter_insertionSort]

end NLin

namespace NLin

def exBuilderC9 : BuildingResource :=
  ⟨[{ id := 0, pos := .Original ⟨0, 5, 6⟩, ty := .OtherTW, scope := [],
      kind := .Structure, meta := none },
    { id := 1, pos := .Original ⟨0, 3, 4⟩, ty := .OtherTW, scope := [],
      kind := .Structure, meta := none },
    { id := 2, pos := .Original ⟨0, 5, 7⟩, ty := .OtherTW, scope := [],
      kind := .Structure, meta := none }], []⟩

theorem c9_witness :
    (∀ item ∈ exBuilderC9.linearization, item.pos ≠ TermPos.None) ∧
    ∃ c, linearize (fun t => t) exBuilderC9 = some c ∧
      c.lin.Pairwise (fun x y => keyLe (sortKey x) (sortKey y)) ∧
      ∀ k, c.lin.filter (fun x => decide (sortKey x = k)) =
        (exBuilderC9.linearization.filter (fun x => decide (sortKey x = k))).map
          (resolveItem (fun t => t)) :=
  ⟨by decide, c9_sorted_stable (fun t => t) exBuilderC9 (by decide)⟩

theorem mkFieldItems_spec (recId : Nat) (pos : TermPos) (ty : TypeWrapper)
    (scope : List ScopeId) :
    ∀ (fs : List (Ident × RichTerm)) (g j : Nat) (idnt : Ident) (rt : RichTerm),
    fs[j]? = some (idnt, rt) →
    (mkFieldItems recId pos ty scope g fs)[j]? = some
      { id := g + j, pos := idnt.pos.getD pos, ty := ty,
        kind := .RecordField idnt.name rt.pos recId [],
        scope := scope, meta := fieldMeta rt.term } := by
  intro fs
  induction fs with
  | nil =>
    intro g j idnt rt h
    simp at h
  | cons f rest ihf =>
    intro g j idnt rt h
    obtain ⟨fi, frt⟩ := f
    match j with
    | 0 =>
      simp at h
      obtain ⟨h1, h2⟩ := h
      subst h1 h2
      simp [mkFieldItems]
    | j + 1 =>
      rw [List.getElem?_cons_succ] at h
      have := ihf (g + 1) j idnt rt h
      simp only [mkFieldItems, List.getElem?_cons_succ]
      rw [this]
      have harith : g + 1 + j = g + (j + 1) := by omega
      rw [harith]

theorem mkFieldItems_map_id (recId : Nat) (pos : TermPos) (ty : TypeWrapper)
    (scope : List ScopeId) :
    ∀ (fs : List (Ident × RichTerm)) (g : Nat),
    (mkFieldItems recId pos ty scope g fs).map (fun item => item.id) =
      List.range' g fs.length := by
  intro fs
  induction fs with
  | nil => intro g; rfl
  | cons f rest ihf =>
    intro g
    obtain ⟨fi, frt⟩ := f
    simp only [mkFieldItems, List.map_cons, List.length_cons, List.range'_succ]
    rw [ihf]

/-- The record branch only ever appends to the item sequence: its own
batch, then the batches of the nested records it recurses into. -/
theorem record_addTerm_appends (fuel : Nat) :
    ∀ (host : AnalysisHost) (lin : BuildingResource)
      (fields : List (Ident × RichTerm)) (pos : TermPos) (ty : TypeWrapper),
    ∃ suff, (addTerm fuel host lin (.Record fields) pos ty).2.linearization =
      lin.linearization ++ suff := by
  induction fuel with
  | zero =>
    intro host lin fields pos ty
    exact ⟨[], by simp [addTerm]⟩
  | succ fuel ih =>
    intro host lin fields pos ty
    by_cases hpos : pos = TermPos.None
    · exact ⟨[], by simp [addTerm, hpos]⟩
    · rw [addTerm_record_eq fuel host lin fields pos ty hpos]
      have hfold : ∀ (fs : List (Ident × RichTerm))
          (acc : AnalysisHost × BuildingResource),
          ∃ suff, (fs.foldl
            (fun acc f =>
              match f.2.term, f.1.pos with
              | .Record fs2, some p =>
                addTerm fuel acc.1 acc.2 (.Record fs2) p (.Concrete .Sym)
              | _, _ => acc) acc).2.linearization =
            acc.2.linearization ++ suff := by
        intro fs
        induction fs with
        | nil => intro acc; exact ⟨[], by simp⟩
        | cons f rest ihf =>
          intro acc
          simp only [List.foldl_cons]
          have hstep : ∃ s1,
              ((fun (acc : AnalysisHost × BuildingResource) (f : Ident × RichTerm) =>
                match f.2.term, f.1.pos with
                | .Record fs2, some p =>
                  addTerm fuel acc.1 acc.2 (.Record fs2) p (.Concrete .Sym)
                | _, _ => acc) acc f).2.linearization =
              acc.2.linearization ++ s1 := by
            cases hft : f.2.term
            case Record fs2 =>
              cases hfp : f.1.pos
              case some p =>
                simp only [hft, hfp]
                exact ih acc.1 acc.2 fs2 p (.Concrete .Sym)
              case none =>
                simp only [hft, hfp]
                exact ⟨[], by simp⟩
            all_goals
              cases hfp : f.1.pos <;>
                (simp only [hft, hfp]; exact ⟨[], by simp⟩)
          obtain ⟨s1, hs1⟩ := hstep
          obtain ⟨s2, hs2⟩ := ihf ((fun (acc : AnalysisHost × BuildingResource)
              (f : Ident × RichTerm) =>
              match f.2.term, f.1.pos with
              | .Record fs2, some p =>
                addTerm fuel acc.1 acc.2 (.Record fs2) p (.Concrete .Sym)
              | _, _ => acc) acc f)
          exact ⟨s1 ++ s2, by rw [hs2, hs1, List.append_assoc]⟩
      obtain ⟨suff, hsuff⟩ := hfold fields
        ({ host with meta := none },
         (mkFieldItems lin.linearization.length pos ty host.scope
             (lin.linearization.length + 1) fields).foldl BuildingResource.push
           (lin.push { id := lin.linearization.length, pos := pos, ty := ty,
                       scope := host.scope,
                       kind := .Record ((mkFieldItems lin.linearization.length
                           pos ty host.scope (lin.linearization.length + 1)
                           fields).map (fun item => item.id)),
                       meta := host.meta }))
      refine ⟨({ id := lin.linearization.length, pos := pos, ty := ty,
                 scope := host.scope,
                 kind := .Record ((mkFieldItems lin.linearization.length pos ty
                     host.scope (lin.linearization.length + 1) fields).map
                     (fun item => item.id)),
                 meta := host.meta } ::
               mkFieldItems lin.linearization.length pos ty host.scope
                 (lin.linearization.length + 1) fields) ++ suff, ?_⟩
      rw [hsuff, record_lin_eq, List.append_assoc]

end NLin

namespace NLin

theorem recordFold_appends (fuel : Nat) :
    ∀ (fs : List (Ident × RichTerm)) (acc : AnalysisHost × BuildingResource),
    ∃ suff, (fs.foldl
      (fun acc f =>
        match f.2.term, f.1.pos with
        | .Record fs2, some p =>
          addTerm fuel acc.1 acc.2 (.Record fs2) p (.Concrete .Sym)
        | _, _ => acc) acc).2.linearization =
      acc.2.linearization ++ suff := by
  intro fs
  induction fs with
  | nil => intro acc; exact ⟨[], by simp⟩
  | cons f rest ihf =>
    intro acc
    simp only [List.foldl_cons]
    have hstep : ∃ s1,
        ((fun (acc : AnalysisHost × BuildingResource) (f : Ident × RichTerm) =>
          match f.2.term, f.1.pos with
          | .Record fs2, some p =>
            addTerm fuel acc.1 acc.2 (.Record fs2) p (.Concrete .Sym)
          | _, _ => acc) acc f).2.linearization =
        acc.2.linearization ++ s1 := by
      cases hft : f.2.term
      case Record fs2 =>
        cases hfp : f.1.pos
        case some p =>
          simp only [hft, hfp]
          exact record_addTerm_appends fuel acc.1 acc.2 fs2 p (.Concrete .Sym)
        case none =>
          simp only [hft, hfp]
          exact ⟨[], by simp⟩
      all_goals
        cases hfp : f.1.pos <;>
          (simp only [hft, hfp]; exact ⟨[], by simp⟩)
    obtain ⟨s1, hs1⟩ := hstep
    obtain ⟨s2, hs2⟩ := ihf ((fun (acc : AnalysisHost × BuildingResource)
        (f : Ident × RichTerm) =>
        match f.2.term, f.1.pos with
        | .Record fs2, some p =>
          addTerm fuel acc.1 acc.2 (.Record fs2) p (.Concrete .Sym)
        | _, _ => acc) acc f)
    exact ⟨s1 ++ s2, by rw [hs2, hs1, List.append_assoc]⟩

/-- C8: observing a record (or recursive record) literal with n fields
pushes exactly one Record item followed by exactly the n RecordField
items, before the nested-record recursion (which only appends a tail
afterwards); the field ids are contiguous right after the record's id,
the Record item's field-id list equals those ids in declared order, and
each field item carries the field's name, value position, owning record
id and an empty usage list. -/
theorem c8_record_batch (fuel : Nat) (host : AnalysisHost) (lin : BuildingResource)
    (fields : List (Ident × RichTerm)) (pos : TermPos) (ty : TypeWrapper) (t : Term)
    (ht : t = .Record fields ∨ t = .RecRecord fields)
    (hpos : pos ≠ TermPos.None) :
    ∃ (recItem : LinearizationItem) (fieldItems : List LinearizationItem)
      (tail : List LinearizationItem),
      (addTerm (fuel + 1) host lin t pos ty).2.linearization =
        lin.linearization ++ (recItem :: fieldItems) ++ tail ∧
      fieldItems.length = fields.length ∧
      recItem.id = lin.linearization.length ∧
      recItem.kind = .Record (fieldItems.map (fun item => item.id)) ∧
      fieldItems.map (fun item => item.id) =
        List.range' (lin.linearization.length + 1) fields.length ∧
      (∀ (j : Nat) (idnt : Ident) (rt : RichTerm), fields[j]? = some (idnt, rt) →
        fieldItems[j]? = some
          { id := lin.linearization.length + 1 + j, pos := idnt.pos.getD pos,
            ty := ty,
            kind := .RecordField idnt.name rt.pos lin.linearization.length [],
            scope := host.scope, meta := fieldMeta rt.term }) := by
  have hrw : addTerm (fuel + 1) host lin t pos ty =
      fields.foldl
        (fun acc f =>
          match f.2.term, f.1.pos with
          | .Record fs2, some p =>
            addTerm fuel acc.1 acc.2 (.Record fs2) p (.Concrete .Sym)
          | _, _ => acc)
        ({ host with meta := none },
         (mkFieldItems lin.linearization.length pos ty host.scope
             (lin.linearization.length + 1) fields).foldl BuildingResource.push
           (lin.push { id := lin.linearization.length, pos := pos, ty := ty,
                       scope := host.scope,
                       kind := .Record ((mkFieldItems lin.linearization.length pos ty
                           host.scope (lin.linearization.length + 1) fields).map
                           (fun item => item.id)),
                       meta := host.meta })) := by
    rcases ht with rfl | rfl
    · exact addTerm_record_eq fuel host lin fields pos ty hpos
    · exact addTerm_recrecord_eq fuel host lin fields pos ty hpos
  obtain ⟨suff, hsuff⟩ := recordFold_appends fuel fields
    ({ host with meta := none },
     (mkFieldItems lin.linearization.length pos ty host.scope
         (lin.linearization.length + 1) fields).foldl BuildingResource.push
       (lin.push { id := lin.linearization.length, pos := pos, ty := ty,
                   scope := host.scope,
                   kind := .Record ((mkFieldItems lin.linearization.length pos ty
                       host.scope (lin.linearization.length + 1) fields).map
                       (fun item => item.id)),
                   meta := host.meta }))
  refine ⟨{ id := lin.linearization.length, pos := pos, ty := ty,
            scope := host.scope,
            kind := .Record ((mkFieldItems lin.linearization.length pos ty
                host.scope (lin.linearization.length + 1) fields).map
                (fun item => item.id)),
            meta := host.meta },
          mkFieldItems lin.linearization.length pos ty host.scope
            (lin.linearization.length + 1) fields,
          suff, ?_, ?_, rfl, rfl, ?_, ?_⟩
  · rw [hrw, hsuff, record_lin_eq, List.append_assoc]
  · exact mkFieldItems_length lin.linearization.length pos ty host.scope fields _
  · exact mkFieldItems_map_id lin.linearization.length pos ty host.scope fields _
  · intro j idnt rt hj
    exact mkFieldItems_spec lin.linearization.length pos ty host.scope fields
      (lin.linearization.length + 1) j idnt rt hj

def exFieldsC8 : List (Ident × RichTerm) :=
  [(⟨"f1", some (posnAt 11)⟩, .mk .Other (posnAt 21)),
   (⟨"f2", some (posnAt 12)⟩, .mk .Other (posnAt 22))]

theorem c8_witness :
    ((Term.Record exFieldsC8) = .Record exFieldsC8 ∨
     (Term.Record exFieldsC8) = .RecRecord exFieldsC8) ∧
    posnAt 5 ≠ TermPos.None ∧
    (∃ (recItem : LinearizationItem) (fieldItems : List LinearizationItem)
      (tail : List LinearizationItem),
      (addTerm 1 AnalysisHost.new emptyResource (.Record exFieldsC8)
        (posnAt 5) .OtherTW).2.linearization =
        emptyResource.linearization ++ (recItem :: fieldItems) ++ tail ∧
      fieldItems.length = exFieldsC8.length ∧
      recItem.id = emptyResource.linearization.length ∧
      recItem.kind = .Record (fieldItems.map (fun item => item.id)) ∧
      fieldItems.map (fun item => item.id) =
        List.range' (emptyResource.linearization.length + 1) exFieldsC8.length ∧
      (∀ (j : Nat) (idnt : Ident) (rt : RichTerm), exFieldsC8[j]? = some (idnt, rt) →
        fieldItems[j]? = some
          { id := emptyResource.linearization.length + 1 + j,
            pos := idnt.pos.getD (posnAt 5), ty := .OtherTW,
            kind := .RecordField idnt.name rt.pos
              emptyResource.linearization.length [],
            scope := AnalysisHost.new.scope, meta := fieldMeta rt.term })) :=
  ⟨Or.inl rfl, by decide,
   c8_record_batch 0 AnalysisHost.new emptyResource exFieldsC8 (posnAt 5)
     .OtherTW (.Record exFieldsC8) (Or.inl rfl) (by decide)⟩

end NLin
